import Mathlib

set_option maxHeartbeats 1000000
set_option maxRecDepth 10000

/-!
Shallow embedding of `src/QDefEd.py` (the Quake entity-definition editor).

Python strings are modelled as `List Char`.  Python floats are modelled as
rationals (`ℚ`): the only float operations the program performs are `float(x)`
on decimal literals and the one-decimal format `f"{x:.1f}"`, both of which are
modelled exactly on the decimal grammar (binary floating-point artefacts such
as `float("0.15")` being slightly below 3/20 are outside the model; no claim
depends on them).  Python `int` is `ℤ`, exceptions are `Option`.
-/

/-- Whitespace test for the ASCII characters recognised by Python's
str.strip / str.split and the regex class in QDefEd.py. -/
def isSpace (c : Char) : Bool :=
  c = ' ' || c = '\t' || c = '\n' || c = '\x0b' || c = '\x0c' || c = '\r'

/-- Python str.strip(): remove leading and trailing whitespace. -/
def strip (l : List Char) : List Char :=
  ((l.dropWhile isSpace).reverse.dropWhile isSpace).reverse

/-- Helper of wsSplit, structurally recursive on a fuel bound so that the
kernel can evaluate it; the fuel never runs out when it starts at the length
of the list, since every step removes at least one character. -/
def wsSplitGo : ℕ → List Char → List (List Char)
  | 0, _ => []
  | _, [] => []
  | fuel + 1, c :: r =>
    if isSpace c then wsSplitGo fuel r
    else (c :: r.takeWhile (fun a => !isSpace a)) :: wsSplitGo fuel (r.dropWhile (fun a => !isSpace a))

/-- Python str.split() with no argument: the maximal runs of non-whitespace
characters, in order, empty runs discarded. -/
def wsSplit (l : List Char) : List (List Char) := wsSplitGo l.length l

/-- Numeric value of a list of ASCII digits, most significant first
(the value Python's int()/float() assigns to a digit string). -/
def natVal (l : List Char) : ℕ := l.foldl (fun a c => 10 * a + (c.toNat - 48)) 0

/-- The ASCII character for a decimal digit (0..9). -/
def decDigit (d : ℕ) : Char :=
  match d with
  | 0 => '0' | 1 => '1' | 2 => '2' | 3 => '3' | 4 => '4'
  | 5 => '5' | 6 => '6' | 7 => '7' | 8 => '8' | _ => '9'

/-- Helper of natToDec: peel decimal digits from the low end onto acc,
structurally recursive on a fuel bound (n itself bounds the number of digits,
so fuel starting at n never runs out for n ≠ 0). -/
def natToDecGo : ℕ → ℕ → List Char → List Char
  | 0, _, acc => acc
  | fuel + 1, n, acc => if n = 0 then acc else natToDecGo fuel (n / 10) (decDigit (n % 10) :: acc)

/-- Python str() of a non-negative integer: default decimal form. -/
def natToDec (n : ℕ) : List Char := if n = 0 then ['0'] else natToDecGo n n []

/-- Python str() of an integer: sign only when negative, no padding. -/
def intToDec (z : ℤ) : List Char :=
  if z < 0 then '-' :: natToDec z.natAbs else natToDec z.natAbs

/-- Euclid's algorithm on naturals, structurally recursive on a fuel bound so
that the kernel can evaluate it (fuel a + 1 suffices for myGcd a b). -/
def myGcdGo : ℕ → ℕ → ℕ → ℕ
  | 0, _, b => b
  | fuel + 1, a, b => if a = 0 then b else myGcdGo fuel (b % a) a

/-- Kernel-evaluable Nat.gcd. -/
def myGcd (a b : ℕ) : ℕ := myGcdGo (a + 1) a b

/-- Build the rational n / d (d a natural) in reduced form directly through
the Rat constructor, so that the kernel can evaluate rational values produced
by the model (the library's rational arithmetic is not kernel-reducible). -/
def mkRatFast (n : ℤ) (d : ℕ) : ℚ :=
  if hd : d = 0 then 0
  else if hn : n = 0 then 0
  else
    have key : ∀ fuel a b, a < fuel → myGcdGo fuel a b = Nat.gcd a b := by
      intro fuel
      induction fuel with
      | zero => intro a b h; omega
      | succ f ih =>
        intro a b h
        by_cases ha : a = 0
        · subst ha; simp [myGcdGo]
        · have h1 : b % a < a := Nat.mod_lt _ (Nat.pos_of_ne_zero ha)
          have h2 : b % a < f := by omega
          rw [myGcdGo, if_neg ha, ih _ _ h2]
          exact (Nat.gcd_rec a b).symm
    have hg : myGcd n.natAbs d = Nat.gcd n.natAbs d := key _ _ _ (Nat.lt_succ_self _)
    have hgpos : 0 < Nat.gcd n.natAbs d :=
      Nat.gcd_pos_of_pos_right _ (Nat.pos_of_ne_zero hd)
    have hdvd : (Nat.gcd n.natAbs d : ℤ) ∣ n := by
      have h1 : ((Nat.gcd n.natAbs d : ℤ)).natAbs ∣ n.natAbs := by
        simpa using Nat.gcd_dvd_left n.natAbs d
      exact Int.natAbs_dvd_natAbs.mp h1
    have hden : d / myGcd n.natAbs d ≠ 0 := by
      rw [hg]
      have hle : Nat.gcd n.natAbs d ≤ d := Nat.le_of_dvd (Nat.pos_of_ne_zero hd) (Nat.gcd_dvd_right _ _)
      have := Nat.div_pos hle hgpos
      omega
    have hred : (n / (myGcd n.natAbs d : ℤ)).natAbs.Coprime (d / myGcd n.natAbs d) := by
      rw [hg, Int.natAbs_ediv _ _ hdvd]
      simpa using Nat.coprime_div_gcd_div_gcd hgpos
    ⟨n / (myGcd n.natAbs d : ℤ), d / myGcd n.natAbs d, hden, hred⟩

/-- Exponent suffix of a Python float literal (after the e/E): scale the
mantissa fraction by the corresponding power of ten. -/
def parseExpFrac (num : ℤ) (den : ℕ) (l : List Char) : Option ℚ :=
  match l with
  | '-' :: r => if !r.isEmpty && r.all Char.isDigit then some (mkRatFast num (den * 10 ^ natVal r)) else none
  | '+' :: r => if !r.isEmpty && r.all Char.isDigit then some (mkRatFast (num * 10 ^ natVal r) den) else none
  | r => if !r.isEmpty && r.all Char.isDigit then some (mkRatFast (num * 10 ^ natVal r) den) else none

/-- Python float(x) on a whitespace-free token, modelled exactly over the
finite decimal/exponent grammar with rational values (special forms such as
inf/nan and underscore separators are outside the model): the value of
sign(ip.fp) is sign (ip * 10^|fp| + fp) / 10^|fp|.  Returns none where
float(x) raises ValueError. -/
def parseFloat (l : List Char) : Option ℚ :=
  let sp : Bool × List Char :=
    if l.head? = some '-' then (true, l.tail)
    else if l.head? = some '+' then (false, l.tail)
    else (false, l)
  let ip := sp.2.takeWhile Char.isDigit
  let r1 := sp.2.dropWhile Char.isDigit
  let fr : List Char × List Char :=
    if r1.head? = some '.' then (r1.tail.takeWhile Char.isDigit, r1.tail.dropWhile Char.isDigit)
    else ([], r1)
  if ip.isEmpty && fr.1.isEmpty then none
  else
    let num : ℤ :=
      if sp.1 then -(natVal ip * 10 ^ fr.1.length + natVal fr.1 : ℕ)
      else (natVal ip * 10 ^ fr.1.length + natVal fr.1 : ℕ)
    if fr.2 = [] then some (mkRatFast num (10 ^ fr.1.length))
    else if fr.2.head? = some 'e' ∨ fr.2.head? = some 'E' then
      parseExpFrac num (10 ^ fr.1.length) fr.2.tail
    else none

/-- The list comprehension [float(x) for x in pieces]: all parse or the whole
comprehension raises. -/
def parseFloatList : List (List Char) → Option (List ℚ)
  | [] => some []
  | x :: xs =>
    match parseFloat x, parseFloatList xs with
    | some v, some vs => some (v :: vs)
    | _, _ => none

/-- Python int(x) on a whitespace-free token: optional sign then decimal
digits (underscore separators are outside the model). -/
def parseInt (l : List Char) : Option ℤ :=
  match l with
  | '-' :: ds => if !ds.isEmpty && ds.all Char.isDigit then some (-(natVal ds : ℤ)) else none
  | '+' :: ds => if !ds.isEmpty && ds.all Char.isDigit then some ((natVal ds : ℤ)) else none
  | ds => if !ds.isEmpty && ds.all Char.isDigit then some ((natVal ds : ℤ)) else none

/-- The list comprehension [int(x) for x in pieces]. -/
def parseIntList : List (List Char) → Option (List ℤ)
  | [] => some []
  | x :: xs =>
    match parseInt x, parseIntList xs with
    | some v, some vs => some (v :: vs)
    | _, _ => none

/-- Round to the nearest integer, ties to even: the rounding used by Python's
fixed-point formatting, transported to the rational model. -/
def roundHalfEven (q : ℚ) : ℤ :=
  if q - ⌊q⌋ < 1 / 2 then ⌊q⌋
  else if 1 / 2 < q - ⌊q⌋ then ⌊q⌋ + 1
  else if ⌊q⌋ % 2 = 0 then ⌊q⌋ else ⌊q⌋ + 1

/-- roundHalfEven of the fraction a / b (b positive), computed on the integer
numerator and denominator so that the kernel can evaluate it: the floor is
the integer division and the half comparisons multiply through by 2b. -/
def roundHalfEvenFrac (a b : ℤ) : ℤ :=
  if 2 * (a - a / b * b) < b then a / b
  else if b < 2 * (a - a / b * b) then a / b + 1
  else if a / b % 2 = 0 then a / b else a / b + 1

/-- Python f-string format {x:.1f}: exactly one digit after the decimal
point, computed from the reduced numerator and denominator of the
rational. -/
def formatFixed1 (q : ℚ) : List Char :=
  let n := roundHalfEvenFrac (10 * q.num) (q.den : ℤ)
  (if n < 0 then ['-'] else []) ++ natToDec (n.natAbs / 10) ++ '.' :: [decDigit (n.natAbs % 10)]

/-- Membership in the character set of Python str.strip('()'). -/
def isParen (c : Char) : Bool := c = '(' || c = ')'

/-- Python str.strip('()'): remove leading and trailing parenthesis
characters. -/
def stripParens (l : List Char) : List Char :=
  ((l.dropWhile isParen).reverse.dropWhile isParen).reverse

/-- A maximal run matching the regex [-]?\d+ entirely. -/
def isIntRun (l : List Char) : Bool :=
  match l with
  | [] => false
  | c :: ds => if c = '-' then !ds.isEmpty && ds.all Char.isDigit else (c :: ds).all Char.isDigit

/-- Full-anchored match of QDefEd's colour regex on one token.  The pattern
is an opening parenthesis, then three nonempty maximal non-whitespace runs
separated by whitespace, then a closing final parenthesis, which is exactly:
first char is a parenthesis open, last char is a parenthesis close, and the
enclosed text splits into three whitespace-separated runs. -/
def colorShape (t : List Char) : Bool :=
  match t with
  | [] => false
  | c :: rest =>
    c = '(' && (!rest.isEmpty && rest.getLast? == some ')' && (wsSplit rest.dropLast).length == 3)

/-- Full-anchored match of QDefEd's bounding-box regex on one token: like
colorShape but each of the three runs must be an optionally signed decimal
integer literal. -/
def intTripleShape (t : List Char) : Bool :=
  match t with
  | [] => false
  | c :: rest =>
    c = '(' && (!rest.isEmpty && rest.getLast? == some ')' &&
      ((wsSplit rest.dropLast).length == 3 && (wsSplit rest.dropLast).all isIntRun))

/-- Integer value of a token already known to match [-]?\d+ (Python int()
on such a run never raises). -/
def intRunVal (l : List Char) : ℤ :=
  match l with
  | [] => 0
  | c :: ds => if c = '-' then -(natVal ds : ℤ) else (natVal (c :: ds) : ℤ)

/-- The in-memory record: class QuakeEntity's fields.  rgb is kept as a list
(the source stores a list and decode can in corner cases produce one whose
length differs from 3); bbox_min/bbox_max are None or a coordinate list. -/
structure QuakeEntity where
  name : List Char
  rgb : List ℚ
  bbox_min : Option (List ℤ)
  bbox_max : Option (List ℤ)
  flags : List (List Char)
  info : List Char
deriving DecidableEq

/-- The default colour (0.8, 0.1, 0.8) of the QuakeEntity constructor and of
from_def_string (built through the kernel-evaluable constructor; the values
are the rationals 8/10, 1/10 and 8/10). -/
def defaultRgb : List ℚ := [mkRatFast 8 10, mkRatFast 1 10, mkRatFast 8 10]

/-- QuakeEntity(name=...) with the remaining constructor defaults, as used
by the Add-New-Entity action. -/
def mkDefault (name : List Char) : QuakeEntity := ⟨name, defaultRgb, none, none, [], []⟩

/-- The rendered triple "(a0 a1 a2)" of one bounding-box corner. -/
def tripleStrOf (a0 a1 a2 : ℤ) : List Char :=
  '(' :: (intToDec a0 ++ ' ' :: intToDec a1 ++ ' ' :: intToDec a2 ++ [')'])

/-- The rendered colour field "(r0 r1 r2)" with one decimal digit per
component. -/
def rgbStrOf (r0 r1 r2 : ℚ) : List Char :=
  '(' :: (formatFixed1 r0 ++ ' ' :: formatFixed1 r1 ++ ' ' :: formatFixed1 r2 ++ [')'])

/-- Lines 18-27 of to_def_string: the bounding-box field.  Both corners
present renders the pair (none if a corner list is too short: the IndexError
of the Python indexing); every other case renders the literal question
mark. -/
def bboxFieldOf (e : QuakeEntity) : Option (List Char) :=
  match e.bbox_min, e.bbox_max with
  | some mn, some mx =>
    match mn, mx with
    | a0 :: a1 :: a2 :: _, b0 :: b1 :: b2 :: _ =>
      some (tripleStrOf a0 a1 a2 ++ ' ' :: tripleStrOf b0 b1 b2)
    | _, _ => none
  | _, _ => some ['?']

/-- Python " ".join. -/
def joinToks : List (List Char) → List Char
  | [] => []
  | [t] => t
  | t :: ts => t ++ ' ' :: joinToks ts

/-- The characters of the open marker keyword. -/
def openMarker : List Char := ['/', '*', 'Q', 'U', 'A', 'K', 'E', 'D']

/-- QuakeEntity.to_def_string.  none models the IndexError raised when rgb
(or a present bounding-box corner list) has fewer than three components;
otherwise the exact output string. -/
def to_def_string (e : QuakeEntity) : Option (List Char) :=
  match e.rgb with
  | r0 :: r1 :: r2 :: _ =>
    match bboxFieldOf e with
    | none => none
    | some bb =>
      let flagsStr := joinToks e.flags
      let firstLine :=
        joinToks ([e.name, rgbStrOf r0 r1 r2, bb] ++ if flagsStr.isEmpty then [] else [flagsStr])
      some (openMarker ++ ' ' :: firstLine ++ '\n' :: strip e.info ++ ['\n', '*', '/'])
  | _ => none

/-- Whether the text begins with the close marker. -/
def startsWithClose : List Char → Bool
  | a :: b :: _ => a = '*' && b = '/'
  | _ => false

/-- Whether the text is whitespace followed immediately by the close marker:
the end-of-group test of the lazy regex group in /*QUAKED\s+(.*?)\s*\*\/
(whitespace characters can never begin the close marker, so the maximal
whitespace run is the only candidate for the \s* part). -/
def closeAfterWS (l : List Char) : Bool := startsWithClose (l.dropWhile isSpace)

/-- The lazy group (.*?)\s*\*\/ of QDefEd's block regex: the shortest prefix
whose remainder is whitespace then the close marker; returns the group and
the text after the close marker, or none when no close marker follows. -/
def findGroupEnd : List Char → Option (List Char × List Char)
  | [] => none
  | c :: r =>
    if closeAfterWS (c :: r) then some ([], ((c :: r).dropWhile isSpace).drop 2)
    else (findGroupEnd r).map (fun p => (c :: p.1, p.2))

/-- Whether the text begins with the open marker keyword. -/
def startsWithMarker (l : List Char) : Bool := l.take 8 == openMarker

/-- One anchored attempt of re's /\*QUAKED\s+(.*?)\s*\*\/ at the head of the
text: the open marker, at least one whitespace character (the \s+ part is
maximal: shorter runs cannot expose an additional close marker because
whitespace never contains one), then the lazy group. -/
def quakedMatch (l : List Char) : Option (List Char × List Char) :=
  if startsWithMarker l then
    match l.drop 8 with
    | [] => none
    | c :: r => if isSpace c then findGroupEnd ((c :: r).dropWhile isSpace) else none
  else none

/-- re.search of the block pattern: the leftmost position where the anchored
attempt succeeds; yields the captured group and the text after the match. -/
def quakedSearch : List Char → Option (List Char × List Char)
  | [] => none
  | c :: r =>
    match quakedMatch (c :: r) with
    | some p => some p
    | none => quakedSearch r

/-- Python block_content.find of the newline: the text before the first
newline, and (when one exists) the remainder starting at that newline. -/
def breakAtNL : List Char → List Char × Option (List Char)
  | [] => ([], none)
  | c :: r =>
    if c = '\n' then ([], some (c :: r))
    else
      ((c :: (breakAtNL r).1), (breakAtNL r).2)

/-- Lines 50-56 of from_def_string: split the block content into the header
line and the description body, each stripped when a newline is present. -/
def splitHeader (content : List Char) : List Char × List Char :=
  match breakAtNL content with
  | (fl, none) => (fl, [])
  | (fl, some rest) => (strip fl, strip rest)

/-- The header tokenizer re.findall((\([^\)]*\)|\S+)): scanning left to
right, a parenthesized group — an opening parenthesis with a closing one
anywhere later, extending to the first closing parenthesis — is one token
(this alternative is tried first), otherwise a maximal run of non-whitespace
characters is one token. -/
def takeToClose : List Char → List Char × List Char
  | [] => ([], [])
  | c :: r => if c = ')' then ([')'], r) else ((c :: (takeToClose r).1), (takeToClose r).2)

/-- Helper of tokenize, structurally recursive on a fuel bound so that the
kernel can evaluate it; every step removes at least one character, so fuel
starting at the length of the list never runs out. -/
def tokenizeGo : ℕ → List Char → List (List Char)
  | 0, _ => []
  | _, [] => []
  | fuel + 1, c :: r =>
    if isSpace c then tokenizeGo fuel r
    else if c = '(' && r.contains ')' then
      (c :: (takeToClose r).1) :: tokenizeGo fuel (takeToClose r).2
    else (c :: r.takeWhile (fun a => !isSpace a)) :: tokenizeGo fuel (r.dropWhile (fun a => !isSpace a))

/-- Header tokenization (see takeToClose for the parenthesized-group rule). -/
def tokenize (l : List Char) : List (List Char) := tokenizeGo l.length l

/-- Result of the colour-parsing stage (lines 76-84): the rgb value, the next
unconsumed token index, and the tokens added to parsed_components. -/
structure ColorRes where
  rgb : List ℚ
  i : ℕ
  consumed : List (List Char)
deriving DecidableEq

/-- Lines 76-84 of from_def_string: if token 1 exists and matches the colour
shape, parse its pieces as floats; on success consume it, otherwise leave the
default colour and do not consume. -/
def colorStage (parts : List (List Char)) : ColorRes :=
  match parts.get? 1 with
  | some p =>
    if colorShape p then
      match parseFloatList (wsSplit (stripParens p)) with
      | some xs => ⟨xs, 2, [p]⟩
      | none => ⟨defaultRgb, 1, []⟩
    else ⟨defaultRgb, 1, []⟩
  | none => ⟨defaultRgb, 1, []⟩

/-- Result of the bounding-box stage (lines 86-119). -/
structure BBoxRes where
  bmin : Option (List ℤ)
  bmax : Option (List ℤ)
  i : ℕ
  consumed : List (List Char)
deriving DecidableEq

/-- Python t.strip('()').split() int-converted, for a token matching the
bounding-box shape. -/
def intListOf (t : List Char) : List ℤ := (wsSplit (stripParens t)).map intRunVal

/-- Lines 86-119 of from_def_string: at the next unconsumed token, a literal
question mark consumes it and leaves the box absent; an integer triple sets
bbox_min and consumes it, then the same match on the following token sets
bbox_max and consumes it only on success; anything else leaves the box absent
and consumes nothing. -/
def bboxStage (parts : List (List Char)) (i : ℕ) : BBoxRes :=
  match parts.get? i with
  | none => ⟨none, none, i, []⟩
  | some t =>
    if t = ['?'] then ⟨none, none, i + 1, [t]⟩
    else if intTripleShape t then
      match parts.get? (i + 1) with
      | some t2 =>
        if intTripleShape t2 then ⟨some (intListOf t), some (intListOf t2), i + 2, [t, t2]⟩
        else ⟨some (intListOf t), none, i + 1, [t]⟩
      | none => ⟨some (intListOf t), none, i + 1, [t]⟩
    else ⟨none, none, i, []⟩

/-- Lines 64-125 of from_def_string, after tokenization: token 0 is the name
(none when no tokens exist), then the colour and bounding-box stages, and
every remaining token whose text is not in parsed_components becomes a flag
in order. -/
def parseHeader (parts : List (List Char)) (info : List Char) : Option QuakeEntity :=
  match parts with
  | [] => none
  | nm :: _ =>
    let cr := colorStage parts
    let br := bboxStage parts cr.i
    let consumed := cr.consumed ++ br.consumed
    some ⟨nm, cr.rgb, br.bmin, br.bmax,
      (parts.drop br.i).filter (fun t => decide (t ∉ consumed)), info⟩

/-- The header tokens a raw block yields inside from_def_string (empty when
the outer regex finds no block). -/
def headerTokens (s : List Char) : List (List Char) :=
  match quakedSearch s with
  | none => []
  | some p => tokenize (splitHeader (strip p.1)).1

/-- QuakeEntity.from_def_string: search the block pattern, strip the captured
group, split header from body, tokenize and parse the header.  none models
Python's None return. -/
def from_def_string (s : List Char) : Option QuakeEntity :=
  match quakedSearch s with
  | none => none
  | some p => parseHeader (tokenize (splitHeader (strip p.1)).1) (splitHeader (strip p.1)).2

/-- Helper of extract_blocks, structurally recursive on a fuel bound so that
the kernel can evaluate it; every match consumes at least one character, so
fuel starting at the length of the text never runs out. -/
def extractGo : ℕ → List Char → List (List Char)
  | 0, _ => []
  | fuel + 1, s =>
    match quakedSearch s with
    | none => []
    | some p => p.1 :: extractGo fuel p.2

/-- re.findall of the block pattern in _open_file: every non-overlapping
match left to right, the captured group of each. -/
def extract_blocks (s : List Char) : List (List Char) := extractGo s.length s

/-- EntityEditorApp._add_flag on the data model: the stripped entry text is
appended only when nonempty and not already present; the Bool reports whether
the entity changed. -/
def addFlag (e : QuakeEntity) (s : List Char) : QuakeEntity × Bool :=
  let f := strip s
  if f = [] then (e, false)
  else if f ∈ e.flags then (e, false)
  else ({ e with flags := e.flags ++ [f] }, true)

/-- EntityEditorApp._apply_entity_changes on the data model: the five entry
strings are validated and assigned in source order; a raised ValueError
returns false together with the entity state at the raise — assignments made
before the failing check persist, exactly as in the Python. -/
def applyEntityChanges (e : QuakeEntity) (nameS rgbS bminS bmaxS infoS : List Char) :
    QuakeEntity × Bool :=
  let nm := strip nameS
  let e1 := { e with name := nm }
  if nm = [] then (e1, false)
  else
    match parseFloatList (wsSplit (strip rgbS)) with
    | none => (e1, false)
    | some rgbParts =>
      if rgbParts.length ≠ 3 then (e1, false)
      else
        let e2 := { e1 with rgb := rgbParts }
        let mnS := strip bminS
        let mxS := strip bmaxS
        if (mnS = ['?'] ∧ mxS ≠ ['?']) ∨ (mnS ≠ ['?'] ∧ mxS = ['?']) then (e2, false)
        else if mnS = ['?'] ∧ mxS = ['?'] then
          ({ e2 with bbox_min := none, bbox_max := none, info := strip infoS }, true)
        else
          match parseIntList (wsSplit mnS) with
          | none => (e2, false)
          | some mnP =>
            if mnP.length ≠ 3 then (e2, false)
            else
              let e3 := { e2 with bbox_min := some mnP }
              match parseIntList (wsSplit mxS) with
              | none => (e3, false)
              | some mxP =>
                if mxP.length ≠ 3 then (e3, false)
                else ({ e3 with bbox_max := some mxP, info := strip infoS }, true)

/-- Whether the open marker keyword occurs anywhere in the text. -/
def hasMarker : List Char → Bool
  | [] => false
  | c :: r => startsWithMarker (c :: r) || hasMarker r

/-- Whether the close marker occurs anywhere in the text. -/
def hasClose : List Char → Bool
  | [] => false
  | c :: r => startsWithClose (c :: r) || hasClose r

/-- The text does not begin with a whitespace character. -/
def headOK (l : List Char) : Prop :=
  match l.head? with
  | some c => isSpace c = false
  | none => True

/-- The text does not end with a whitespace character. -/
def lastOK (l : List Char) : Prop :=
  match l.getLast? with
  | some c => isSpace c = false
  | none => True

/-- A plain header token: nonempty, free of whitespace and of parenthesis
characters, and not containing the close marker. -/
def goodTok (t : List Char) : Prop :=
  t ≠ [] ∧ (∀ c ∈ t, isSpace c = false ∧ c ≠ '(' ∧ c ≠ ')') ∧ hasClose t = false

instance : DecidablePred goodTok := fun t => by unfold goodTok; infer_instance

instance : DecidablePred headOK := fun l => by unfold headOK; exact
  match l.head? with
  | some c => inferInstanceAs (Decidable (isSpace c = false))
  | none => inferInstanceAs (Decidable True)

instance : DecidablePred lastOK := fun l => by unfold lastOK; exact
  match l.getLast? with
  | some c => inferInstanceAs (Decidable (isSpace c = false))
  | none => inferInstanceAs (Decidable True)

/-- The tokens from_def_string adds to parsed_components for a given header
token list. -/
def consumedOf (parts : List (List Char)) : List (List Char) :=
  (colorStage parts).consumed ++ (bboxStage parts (colorStage parts).i).consumed

/-- The index at which from_def_string starts collecting flags for a given
header token list. -/
def flagStart (parts : List (List Char)) : ℕ :=
  (bboxStage parts (colorStage parts).i).i

/-- A token the header tokenizer reproduces as a plain non-whitespace run:
nonempty, whitespace-free, not starting with an opening parenthesis. -/
def plainTok (t : List Char) : Prop :=
  t ≠ [] ∧ (∀ c ∈ t, isSpace c = false) ∧ t.head? ≠ some '('

/-- A token the header tokenizer reproduces as a parenthesized group: an
opening parenthesis, body free of closing parentheses, closing
parenthesis. -/
def parenTok (t : List Char) : Prop :=
  ∃ inner, t = '(' :: inner ++ [')'] ∧ ')' ∉ inner

/-- A token reproduced verbatim by the header tokenizer. -/
def wfTok (t : List Char) : Prop := plainTok t ∨ parenTok t

/-!
Theorems.  First a layer of small lemmas about the fuel-based helpers: the
fuel bounds used by the definitions never run out, giving the natural
unfolding equations.
-/

theorem lenDropWhileLe {α : Type} (p : α → Bool) (l : List α) :
    (l.dropWhile p).length ≤ l.length := by
  induction l with
  | nil => simp [List.dropWhile]
  | cons a r ih =>
    by_cases h : p a
    · simp only [List.dropWhile_cons, h, if_true, List.length_cons]
      omega
    · simp [List.dropWhile_cons, h]

theorem wsSplitGo_nil (fuel : ℕ) : wsSplitGo fuel [] = [] := by
  cases fuel <;> rfl

theorem wsSplitGo_inv : ∀ f1 f2 (l : List Char), l.length ≤ f1 → l.length ≤ f2 →
    wsSplitGo f1 l = wsSplitGo f2 l := by
  intro f1
  induction f1 with
  | zero =>
    intro f2 l h1 h2
    have hl : l = [] := List.eq_nil_of_length_eq_zero (by omega)
    subst hl
    rw [wsSplitGo_nil, wsSplitGo_nil]
  | succ f ih =>
    intro f2 l h1 h2
    cases l with
    | nil => rw [wsSplitGo_nil, wsSplitGo_nil]
    | cons c r =>
      simp only [List.length_cons] at h1 h2
      obtain ⟨g, rfl⟩ : ∃ g, f2 = g + 1 := ⟨f2 - 1, by omega⟩
      simp only [wsSplitGo]
      by_cases hc : isSpace c
      · rw [if_pos hc, if_pos hc]
        exact ih g r (by omega) (by omega)
      · rw [if_neg hc, if_neg hc]
        have hd := lenDropWhileLe (fun a => !isSpace a) r
        rw [ih g _ (by omega) (by omega)]

theorem wsSplit_nil : wsSplit [] = [] := rfl

theorem wsSplit_cons_space {c : Char} {r : List Char} (hc : isSpace c = true) :
    wsSplit (c :: r) = wsSplit r := by
  simp only [wsSplit, List.length_cons, wsSplitGo, hc, if_true]

theorem wsSplit_cons_run {c : Char} {r : List Char} (hc : isSpace c = false) :
    wsSplit (c :: r) =
      (c :: r.takeWhile (fun a => !isSpace a)) :: wsSplit (r.dropWhile (fun a => !isSpace a)) := by
  simp only [wsSplit, List.length_cons, wsSplitGo, hc, if_false, Bool.false_eq_true]
  have hd := lenDropWhileLe (fun a => !isSpace a) r
  rw [wsSplitGo_inv r.length (r.dropWhile (fun a => !isSpace a)).length
    (r.dropWhile (fun a => !isSpace a)) (by omega) (by omega)]

theorem takeToCloseLen (l : List Char) : (takeToClose l).2.length ≤ l.length := by
  induction l with
  | nil => simp [takeToClose]
  | cons a r ih =>
    by_cases ha : a = ')'
    · simp [takeToClose, ha]
    · simp only [takeToClose, ha, if_false, List.length_cons]
      omega

theorem tokenizeGo_nil (fuel : ℕ) : tokenizeGo fuel [] = [] := by
  cases fuel <;> rfl

theorem tokenizeGo_inv : ∀ f1 f2 (l : List Char), l.length ≤ f1 → l.length ≤ f2 →
    tokenizeGo f1 l = tokenizeGo f2 l := by
  intro f1
  induction f1 with
  | zero =>
    intro f2 l h1 h2
    have hl : l = [] := List.eq_nil_of_length_eq_zero (by omega)
    subst hl
    rw [tokenizeGo_nil, tokenizeGo_nil]
  | succ f ih =>
    intro f2 l h1 h2
    cases l with
    | nil => rw [tokenizeGo_nil, tokenizeGo_nil]
    | cons c r =>
      simp only [List.length_cons] at h1 h2
      obtain ⟨g, rfl⟩ : ∃ g, f2 = g + 1 := ⟨f2 - 1, by omega⟩
      simp only [tokenizeGo]
      by_cases hc : isSpace c
      · rw [if_pos hc, if_pos hc]
        exact ih g r (by omega) (by omega)
      · rw [if_neg hc, if_neg hc]
        by_cases hp : (c = '(' && r.contains ')') = true
        · rw [if_pos hp, if_pos hp]
          have ht := takeToCloseLen r
          rw [ih g _ (by omega) (by omega)]
        · rw [if_neg hp, if_neg hp]
          have hd := lenDropWhileLe (fun a => !isSpace a) r
          rw [ih g _ (by omega) (by omega)]

theorem tokenize_nil : tokenize [] = [] := rfl

theorem tokenize_cons_space {c : Char} {r : List Char} (hc : isSpace c = true) :
    tokenize (c :: r) = tokenize r := by
  simp only [tokenize, List.length_cons, tokenizeGo, hc, if_true]

theorem tokenize_cons_paren {c : Char} {r : List Char} (hc : c = '(') (hr : r.contains ')' = true) :
    tokenize (c :: r) = (c :: (takeToClose r).1) :: tokenize (takeToClose r).2 := by
  have hs : isSpace c = false := by subst hc; decide
  have hp : (c = '(' && r.contains ')') = true := by
    subst hc; simpa using hr
  simp only [tokenize, List.length_cons, tokenizeGo, hs, if_false, hp, if_true,
    Bool.false_eq_true]
  have ht := takeToCloseLen r
  rw [tokenizeGo_inv r.length (takeToClose r).2.length (takeToClose r).2 (by omega) (by omega)]

theorem tokenize_cons_run {c : Char} {r : List Char} (hc : isSpace c = false)
    (hp : (c = '(' && r.contains ')') = false) :
    tokenize (c :: r) =
      (c :: r.takeWhile (fun a => !isSpace a)) :: tokenize (r.dropWhile (fun a => !isSpace a)) := by
  simp only [tokenize, List.length_cons, tokenizeGo, hc, hp, if_false, Bool.false_eq_true]
  have hd := lenDropWhileLe (fun a => !isSpace a) r
  rw [tokenizeGo_inv r.length (r.dropWhile (fun a => !isSpace a)).length
    (r.dropWhile (fun a => !isSpace a)) (by omega) (by omega)]

theorem natToDecGo_zeroN (fuel : ℕ) (acc : List Char) : natToDecGo fuel 0 acc = acc := by
  cases fuel <;> simp [natToDecGo]

theorem natToDecGo_acc : ∀ n fuel acc, n ≤ fuel →
    natToDecGo fuel n acc = natToDecGo n n [] ++ acc := by
  intro n
  induction n using Nat.strong_induction_on with
  | _ n ih =>
    intro fuel acc hle
    by_cases hn : n = 0
    · subst hn
      rw [natToDecGo_zeroN, natToDecGo_zeroN]
      rfl
    · obtain ⟨f, rfl⟩ : ∃ f, fuel = f + 1 := ⟨fuel - 1, by omega⟩
      have hdiv : n / 10 < n := Nat.div_lt_self (Nat.pos_of_ne_zero hn) (by omega)
      rw [natToDecGo, if_neg hn, ih (n / 10) hdiv f _ (by omega)]
      obtain ⟨m, hm⟩ : ∃ m, n = m + 1 := ⟨n - 1, by omega⟩
      conv_rhs => rw [hm, natToDecGo, if_neg (hm ▸ hn)]
      rw [← hm, ih (n / 10) hdiv m _ (by omega)]
      simp

theorem natToDecCore_rec (n : ℕ) (hn : n ≠ 0) :
    natToDecGo n n [] = natToDecGo (n / 10) (n / 10) [] ++ [decDigit (n % 10)] := by
  obtain ⟨m, hm⟩ : ∃ m, n = m + 1 := ⟨n - 1, by omega⟩
  conv_lhs => rw [hm, natToDecGo, if_neg (hm ▸ hn)]
  rw [← hm]
  have hdiv : n / 10 < n := Nat.div_lt_self (Nat.pos_of_ne_zero hn) (by omega)
  exact natToDecGo_acc (n / 10) m _ (by omega)

/-!
Decimal digits: the printed form of naturals and integers parses back to the
same value.
-/

theorem natValFoldl (l : List Char) : ∀ acc : ℕ,
    List.foldl (fun a c => 10 * a + (c.toNat - 48)) acc l = acc * 10 ^ l.length + natVal l := by
  induction l with
  | nil => intro acc; simp [natVal]
  | cons c r ih =>
    intro acc
    simp only [List.foldl_cons, List.length_cons, natVal]
    rw [ih (10 * acc + (c.toNat - 48)), ih (10 * 0 + (c.toNat - 48))]
    ring

theorem natVal_cons (c : Char) (r : List Char) :
    natVal (c :: r) = (c.toNat - 48) * 10 ^ r.length + natVal r := by
  simp only [natVal, List.foldl_cons]
  rw [natValFoldl r (10 * 0 + (c.toNat - 48))]
  simp only [natVal]
  ring

theorem natVal_append (a b : List Char) :
    natVal (a ++ b) = natVal a * 10 ^ b.length + natVal b := by
  simp only [natVal, List.foldl_append]
  rw [natValFoldl b (List.foldl (fun a c => 10 * a + (c.toNat - 48)) 0 a)]
  rfl

theorem decDigit_toNat {d : ℕ} (hd : d < 10) : (decDigit d).toNat - 48 = d := by
  interval_cases d <;> decide

theorem decDigit_isDigit {d : ℕ} (hd : d < 10) : (decDigit d).isDigit = true := by
  interval_cases d <;> decide

theorem natToDec_spec (n : ℕ) :
    natVal (natToDec n) = n ∧ (∀ c ∈ natToDec n, c.isDigit = true) ∧ natToDec n ≠ [] := by
  induction n using Nat.strong_induction_on with
  | _ n ih =>
    by_cases hn : n = 0
    · subst hn
      refine ⟨by decide, ?_, by decide⟩
      intro c hc
      have h0 : natToDec 0 = ['0'] := rfl
      rw [h0, List.mem_singleton] at hc
      subst hc
      decide
    · have hmod : n % 10 < 10 := Nat.mod_lt _ (by omega)
      have hcore : natToDec n = natToDecGo n n [] := by rw [natToDec, if_neg hn]
      rw [hcore, natToDecCore_rec n hn]
      by_cases h10 : n / 10 = 0
      · rw [h10, natToDecGo_zeroN]
        have hv : natVal [decDigit (n % 10)] = n := by
          rw [natVal_cons]
          simp only [List.length_nil, pow_zero, mul_one]
          rw [decDigit_toNat hmod]
          have : natVal ([] : List Char) = 0 := by decide
          rw [this]
          omega
        refine ⟨by simpa using hv, ?_, by simp⟩
        intro c hc
        simp only [List.nil_append, List.mem_singleton] at hc
        subst hc
        exact decDigit_isDigit hmod
      · have hlt : n / 10 < n := Nat.div_lt_self (Nat.pos_of_ne_zero hn) (by omega)
        have ihh := ih (n / 10) hlt
        have hcore2 : natToDec (n / 10) = natToDecGo (n / 10) (n / 10) [] := by
          rw [natToDec, if_neg h10]
        rw [← hcore2]
        refine ⟨?_, ?_, by simp⟩
        · rw [natVal_append, ihh.1]
          have hv1 : natVal [decDigit (n % 10)] = n % 10 := by
            rw [natVal_cons]
            simp only [List.length_nil, pow_zero, mul_one]
            rw [decDigit_toNat hmod]
            have : natVal ([] : List Char) = 0 := by decide
            rw [this]
            omega
          rw [hv1]
          simp only [List.length_singleton, pow_one]
          omega
        · intro c hc
          rcases List.mem_append.mp hc with h | h
          · exact ihh.2.1 c h
          · simp only [List.mem_singleton] at h
            subst h
            exact decDigit_isDigit hmod

theorem natVal_natToDec (n : ℕ) : natVal (natToDec n) = n := (natToDec_spec n).1

theorem natToDec_digits (n : ℕ) : ∀ c ∈ natToDec n, c.isDigit = true := (natToDec_spec n).2.1

theorem natToDec_ne_nil (n : ℕ) : natToDec n ≠ [] := (natToDec_spec n).2.2

theorem isDigit_not_space {c : Char} (h : c.isDigit = true) : isSpace c = false := by
  by_contra hc
  have hs : isSpace c = true := by
    cases he : isSpace c
    · exact absurd he hc
    · rfl
  simp only [isSpace, Bool.or_eq_true, decide_eq_true_eq] at hs
  rcases hs with ((((h1 | h1) | h1) | h1) | h1) | h1 <;> subst h1 <;> exact absurd h (by decide)

theorem isDigit_ne {c : Char} (h : c.isDigit = true) {x : Char}
    (hx : x.isDigit = false) : c ≠ x := by
  intro he
  subst he
  rw [h] at hx
  cases hx

theorem natToDec_head_digit (n : ℕ) : ∃ c r, natToDec n = c :: r ∧ c.isDigit = true := by
  cases h : natToDec n with
  | nil => exact absurd h (natToDec_ne_nil n)
  | cons c r =>
    refine ⟨c, r, rfl, ?_⟩
    exact natToDec_digits n c (by rw [h]; exact List.mem_cons_self c r)

theorem intToDec_spec (z : ℤ) :
    intToDec z ≠ [] ∧ isIntRun (intToDec z) = true ∧ intRunVal (intToDec z) = z ∧
      (∀ c ∈ intToDec z, c.isDigit = true ∨ c = '-') := by
  by_cases hz : z < 0
  · rw [intToDec, if_pos hz]
    have hne := natToDec_ne_nil z.natAbs
    have hdg := natToDec_digits z.natAbs
    refine ⟨by simp, ?_, ?_, ?_⟩
    · simp only [isIntRun]
      rw [if_pos trivial]
      simp only [Bool.and_eq_true, Bool.not_eq_true', List.isEmpty_eq_false,
        List.all_eq_true]
      exact ⟨hne, fun c hc => hdg c hc⟩
    · simp only [intRunVal]
      rw [if_pos trivial, natVal_natToDec]
      omega
    · intro c hc
      rcases List.mem_cons.mp hc with h | h
      · exact Or.inr h
      · exact Or.inl (hdg c h)
  · rw [intToDec, if_neg hz]
    obtain ⟨c, r, hcr, hdig⟩ := natToDec_head_digit z.natAbs
    have hcm : c ≠ '-' := isDigit_ne hdig (by decide)
    refine ⟨natToDec_ne_nil z.natAbs, ?_, ?_, ?_⟩
    · rw [hcr]
      simp only [isIntRun]
      rw [if_neg hcm, List.all_eq_true]
      intro x hx
      exact natToDec_digits z.natAbs x (by rw [hcr]; exact hx)
    · rw [hcr]
      simp only [intRunVal]
      rw [if_neg hcm, ← hcr, natVal_natToDec]
      omega
    · intro x hx
      exact Or.inl (natToDec_digits z.natAbs x hx)

theorem myGcd_gcd (a b : ℕ) : myGcd a b = Nat.gcd a b := by
  have key : ∀ fuel a b, a < fuel → myGcdGo fuel a b = Nat.gcd a b := by
    intro fuel
    induction fuel with
    | zero => intro a b h; omega
    | succ f ih =>
      intro a b h
      by_cases ha : a = 0
      · subst ha; simp [myGcdGo]
      · have h1 : b % a < a := Nat.mod_lt _ (Nat.pos_of_ne_zero ha)
        have h2 : b % a < f := by omega
        rw [myGcdGo, if_neg ha, ih _ _ h2]
        exact (Nat.gcd_rec a b).symm
  exact key _ _ _ (Nat.lt_succ_self _)

theorem mkRatFast_eq (n : ℤ) (d : ℕ) : mkRatFast n d = (n : ℚ) / (d : ℚ) := by
  unfold mkRatFast
  by_cases hd : d = 0
  · rw [dif_pos hd, hd]
    simp
  · rw [dif_neg hd]
    by_cases hn : n = 0
    · rw [dif_pos hn, hn]
      simp
    · rw [dif_neg hn]
      have hg : myGcd n.natAbs d = Nat.gcd n.natAbs d := myGcd_gcd _ _
      have hgpos : 0 < Nat.gcd n.natAbs d :=
        Nat.gcd_pos_of_pos_right _ (Nat.pos_of_ne_zero hd)
      obtain ⟨n1, hn1⟩ : (Nat.gcd n.natAbs d : ℤ) ∣ n := by
        have h1 : ((Nat.gcd n.natAbs d : ℤ)).natAbs ∣ n.natAbs := by
          simpa using Nat.gcd_dvd_left n.natAbs d
        exact Int.natAbs_dvd_natAbs.mp h1
      obtain ⟨d1, hd1⟩ : Nat.gcd n.natAbs d ∣ d := Nat.gcd_dvd_right _ _
      have hgz : (Nat.gcd n.natAbs d : ℤ) ≠ 0 := by
        exact_mod_cast (by omega : Nat.gcd n.natAbs d ≠ 0)
      have hgq : (Nat.gcd n.natAbs d : ℚ) ≠ 0 := by
        exact_mod_cast (by omega : Nat.gcd n.natAbs d ≠ 0)
      have main : ∀ (h1 : d / myGcd n.natAbs d ≠ 0)
          (h2 : (n / (myGcd n.natAbs d : ℤ)).natAbs.Coprime (d / myGcd n.natAbs d)),
          (⟨n / (myGcd n.natAbs d : ℤ), d / myGcd n.natAbs d, h1, h2⟩ : ℚ) = (n : ℚ) / (d : ℚ) := by
        intro h1 h2
        rw [Rat.mk'_eq_divInt, Rat.divInt_eq_div, hg]
        set g := Nat.gcd n.natAbs d with hgd
        rw [show n / (g : ℤ) = n1 from by
          rw [hn1]; exact Int.mul_ediv_cancel_left n1 hgz]
        rw [show d / g = d1 from by
          rw [hd1]; exact Nat.mul_div_cancel_left d1 hgpos]
        rw [hn1, hd1]
        push_cast
        rw [mul_div_mul_left _ _ hgq]
      exact main _ _

theorem takeWhileAppendStop {p : Char → Bool} {xs : List Char} (h : ∀ c ∈ xs, p c = true)
    (ys : List Char) : (xs ++ ys).takeWhile p = xs ++ ys.takeWhile p := by
  induction xs with
  | nil => simp
  | cons a r ih =>
    have ha : p a = true := h a (List.mem_cons_self a r)
    simp only [List.cons_append, List.takeWhile_cons, ha, if_true]
    rw [ih (fun c hc => h c (List.mem_cons_of_mem a hc))]

theorem dropWhileAppendStop {p : Char → Bool} {xs : List Char} (h : ∀ c ∈ xs, p c = true)
    (ys : List Char) : (xs ++ ys).dropWhile p = ys.dropWhile p := by
  induction xs with
  | nil => simp
  | cons a r ih =>
    have ha : p a = true := h a (List.mem_cons_self a r)
    simp only [List.cons_append, List.dropWhile_cons, ha, if_true]
    exact ih (fun c hc => h c (List.mem_cons_of_mem a hc))

theorem roundHalfEvenFrac_exact {a b k : ℤ} (hb : 0 < b) (h : a = k * b) :
    roundHalfEvenFrac a b = k := by
  subst h
  have h1 : k * b / b = k := Int.mul_ediv_cancel _ (by omega)
  unfold roundHalfEvenFrac
  rw [h1]
  simp only [sub_self, mul_zero]
  rw [if_pos hb]

theorem tenth_num_den (k : ℤ) : 10 * ((k : ℚ) / 10).num = k * (((k : ℚ) / 10).den : ℤ) := by
  set q : ℚ := (k : ℚ) / 10 with hqd
  have hd0 : ((q.den : ℚ)) ≠ 0 := by
    exact_mod_cast Rat.den_ne_zero q
  have hnum : (q.num : ℚ) = q * q.den := by
    have h0 := Rat.num_div_den q
    rw [div_eq_iff hd0] at h0
    exact h0
  have h10q : (10 : ℚ) * q = k := by
    rw [hqd]
    field_simp
  have h : ((10 * q.num : ℤ) : ℚ) = ((k * (q.den : ℤ) : ℤ) : ℚ) := by
    push_cast
    rw [hnum]
    calc (10 : ℚ) * (q * q.den) = (10 * q) * q.den := by ring
    _ = k * q.den := by rw [h10q]
  exact_mod_cast h

theorem formatFixed1_tenth (k : ℤ) :
    formatFixed1 ((k : ℚ) / 10) =
      (if k < 0 then ['-'] else []) ++
        natToDec (k.natAbs / 10) ++ '.' :: [decDigit (k.natAbs % 10)] := by
  have hbpos : (0 : ℤ) < (((k : ℚ) / 10).den : ℤ) := by
    exact_mod_cast Rat.den_pos _
  simp only [formatFixed1]
  rw [roundHalfEvenFrac_exact hbpos (tenth_num_den k)]

theorem natVal_singleton (c : Char) : natVal [c] = c.toNat - 48 := by
  rw [natVal_cons]
  simp [natVal]

theorem parseFloat_formatFixed1 (k : ℤ) :
    parseFloat (formatFixed1 ((k : ℚ) / 10)) = some ((k : ℚ) / 10) := by
  rw [formatFixed1_tenth]
  have hmod : k.natAbs % 10 < 10 := Nat.mod_lt _ (by omega)
  have hdig : (decDigit (k.natAbs % 10)).isDigit = true := decDigit_isDigit hmod
  have ha : ∀ c ∈ natToDec (k.natAbs / 10), Char.isDigit c = true := natToDec_digits _
  have htw : ((natToDec (k.natAbs / 10) ++ '.' :: [decDigit (k.natAbs % 10)]).takeWhile
      Char.isDigit) = natToDec (k.natAbs / 10) := by
    rw [takeWhileAppendStop ha]
    simp [List.takeWhile_cons]
  have hdw : ((natToDec (k.natAbs / 10) ++ '.' :: [decDigit (k.natAbs % 10)]).dropWhile
      Char.isDigit) = '.' :: [decDigit (k.natAbs % 10)] := by
    rw [dropWhileAppendStop ha]
    simp [List.dropWhile_cons]
  have hne : (natToDec (k.natAbs / 10)).isEmpty = false := by
    simpa using natToDec_ne_nil (k.natAbs / 10)
  have hval : (natVal (natToDec (k.natAbs / 10)) * 10 ^ (1 : ℕ) +
      natVal [decDigit (k.natAbs % 10)] : ℕ) = k.natAbs := by
    rw [natVal_natToDec, natVal_singleton, decDigit_toNat hmod]
    omega
  by_cases hk : k < 0
  · rw [if_pos hk]
    simp only [List.append_assoc, List.cons_append, List.singleton_append, List.nil_append, parseFloat, List.head?_cons,
      List.tail_cons, Option.some.injEq, eq_self_iff_true, if_true, reduceCtorEq, reduceIte,
      htw, hdw, hne, hdig, List.takeWhile_cons, List.takeWhile_nil, List.dropWhile_cons,
      List.dropWhile_nil, Bool.false_and, Bool.false_eq_true, if_false, List.length_singleton]
    rw [hval, mkRatFast_eq]
    push_cast
    have hkq : (k : ℚ) < 0 := by exact_mod_cast hk
    rw [abs_of_neg hkq]
    norm_num
  · rw [if_neg hk]
    obtain ⟨c0, r0, hcr, hdig0⟩ := natToDec_head_digit (k.natAbs / 10)
    have hc0m : c0 ≠ '-' := isDigit_ne hdig0 (by decide)
    have hc0p : c0 ≠ '+' := isDigit_ne hdig0 (by decide)
    have hhd : (natToDec (k.natAbs / 10) ++ '.' :: [decDigit (k.natAbs % 10)]).head? = some c0 := by
      rw [hcr]
      simp
    simp only [List.append_assoc, List.cons_append, List.nil_append, parseFloat, hhd, hc0m, hc0p,
      List.head?_cons, List.tail_cons, Option.some.injEq, eq_self_iff_true, if_true,
      reduceCtorEq, reduceIte, htw, hdw, hne, hdig, List.takeWhile_cons, List.takeWhile_nil,
      List.dropWhile_cons, List.dropWhile_nil, Bool.false_and, Bool.false_eq_true, if_false,
      List.length_singleton]
    rw [hval, mkRatFast_eq]
    push_cast
    have hkq : (0 : ℚ) ≤ (k : ℚ) := by exact_mod_cast not_lt.mp hk
    rw [abs_of_nonneg hkq]

/-!
Lemmas about strip, whitespace and the close-marker search.
-/

theorem dropWhileEqSelf {p : Char → Bool} {l : List Char}
    (h : ∀ c, l.head? = some c → p c = false) : l.dropWhile p = l := by
  cases l with
  | nil => rfl
  | cons c r =>
    rw [List.dropWhile_cons, if_neg]
    rw [h c rfl]
    simp

theorem dropWhileLenEq {p : Char → Bool} : ∀ l : List Char,
    (l.dropWhile p).length = l.length → l.dropWhile p = l := by
  intro l h
  cases l with
  | nil => rfl
  | cons c r =>
    by_cases hc : p c
    · rw [List.dropWhile_cons, if_pos hc] at h ⊢
      have := lenDropWhileLe p r
      simp only [List.length_cons] at h
      omega
    · rw [List.dropWhile_cons, if_neg hc]

theorem headOKOfDropWhile {l : List Char} (h : l.dropWhile isSpace = l) : headOK l := by
  cases l with
  | nil => trivial
  | cons c r =>
    by_cases hc : isSpace c
    · rw [List.dropWhile_cons, if_pos hc] at h
      have h1 := lenDropWhileLe isSpace r
      have h2 := congrArg List.length h
      simp only [List.length_cons] at h2
      omega
    · simp only [headOK, List.head?_cons]
      exact Bool.not_eq_true _ ▸ (by revert hc; cases isSpace c <;> simp)

theorem stripLen (l : List Char) : (strip l).length ≤ (l.dropWhile isSpace).length := by
  simp only [strip, List.length_reverse]
  have := lenDropWhileLe isSpace (l.dropWhile isSpace).reverse
  simpa using this

theorem strip_eq_self_parts {l : List Char} (h : strip l = l) :
    l.dropWhile isSpace = l ∧ l.reverse.dropWhile isSpace = l.reverse := by
  have hlen : (strip l).length = l.length := by rw [h]
  have h1 := stripLen l
  have h2 := lenDropWhileLe isSpace l
  have hdw : l.dropWhile isSpace = l := by
    apply dropWhileLenEq
    omega
  refine ⟨hdw, ?_⟩
  have h3 : strip l = (l.reverse.dropWhile isSpace).reverse := by
    rw [strip, hdw]
  rw [h3] at h
  have h4 := congrArg List.reverse h
  rw [List.reverse_reverse] at h4
  exact h4

theorem headOKOfStrip {l : List Char} (h : strip l = l) : headOK l :=
  headOKOfDropWhile (strip_eq_self_parts h).1

theorem lastOKOfStrip {l : List Char} (h : strip l = l) : lastOK l := by
  have h2 := headOKOfDropWhile (strip_eq_self_parts h).2
  simp only [headOK, List.head?_reverse] at h2
  simp only [lastOK]
  exact h2

theorem strip_eq_self_of {l : List Char} (h1 : headOK l) (h2 : lastOK l) : strip l = l := by
  have d1 : l.dropWhile isSpace = l := by
    apply dropWhileEqSelf
    intro c hc
    simpa [headOK, hc] using h1
  have d2 : l.reverse.dropWhile isSpace = l.reverse := by
    apply dropWhileEqSelf
    intro c hc
    rw [List.head?_reverse] at hc
    simpa [lastOK, hc] using h2
  rw [strip, d1, d2, List.reverse_reverse]

theorem strip_cons_space {c : Char} {l : List Char} (hc : isSpace c = true) :
    strip (c :: l) = strip l := by
  simp only [strip, List.dropWhile_cons, hc, if_true]

theorem strip_nil : strip [] = [] := rfl

theorem startsWithCloseTrue (x : List Char) : startsWithClose ('*' :: '/' :: x) = true := by
  simp [startsWithClose]

theorem startsWithCloseOfCons {a : Char} {r : List Char} (ha : a ≠ '*') :
    startsWithClose (a :: r) = false := by
  cases r with
  | nil => rfl
  | cons b t =>
    simp only [startsWithClose, Bool.and_eq_false_iff]
    left
    simpa using ha

theorem hasCloseOfStarts {l : List Char} (h : startsWithClose l = true) : hasClose l = true := by
  cases l with
  | nil => simp [startsWithClose] at h
  | cons c r => simp [hasClose, h]

theorem hasCloseCons {c : Char} {r : List Char} :
    hasClose (c :: r) = (startsWithClose (c :: r) || hasClose r) := rfl

theorem hasCloseTail {c : Char} {r : List Char} (h : hasClose (c :: r) = false) :
    hasClose r = false := by
  rw [hasCloseCons, Bool.or_eq_false_iff] at h
  exact h.2

theorem hasCloseDropWhile {p : Char → Bool} {l : List Char}
    (h : hasClose (l.dropWhile p) = true) : hasClose l = true := by
  induction l with
  | nil => simpa [List.dropWhile] using h
  | cons c r ih =>
    by_cases hc : p c
    · rw [List.dropWhile_cons, if_pos hc] at h
      rw [hasCloseCons, ih h]
      simp
    · rwa [List.dropWhile_cons, if_neg hc] at h

theorem dropWhileAllSpace {W : List Char} (hW : ∀ c ∈ W, isSpace c = true) (X : List Char) :
    (W ++ '*' :: X).dropWhile isSpace = '*' :: X := by
  induction W with
  | nil =>
    simp only [List.nil_append]
    rw [List.dropWhile_cons, if_neg]
    decide
  | cons w W' ih =>
    rw [List.cons_append, List.dropWhile_cons, if_pos (hW w (List.mem_cons_self w W'))]
    exact ih (fun c hc => hW c (List.mem_cons_of_mem w hc))

theorem dropWhileAppendLeft {p : Char → Bool} {l : List Char} (h : l.dropWhile p ≠ [])
    (m : List Char) : (l ++ m).dropWhile p = l.dropWhile p ++ m := by
  induction l with
  | nil => simp [List.dropWhile] at h
  | cons c r ih =>
    by_cases hc : p c
    · rw [List.dropWhile_cons, if_pos hc] at h
      rw [List.cons_append, List.dropWhile_cons, if_pos hc, ih h, List.dropWhile_cons,
        if_pos hc]
    · rw [List.cons_append, List.dropWhile_cons, if_neg hc, List.dropWhile_cons, if_neg hc,
        List.cons_append]

theorem lastOKSpec {l : List Char} (h : lastOK l) :
    ∀ c, l.getLast? = some c → isSpace c = false := by
  intro c hc
  unfold lastOK at h
  rw [hc] at h
  exact h

theorem lastOKOf {l : List Char} (h : ∀ c, l.getLast? = some c → isSpace c = false) :
    lastOK l := by
  unfold lastOK
  cases hc : l.getLast? with
  | none => trivial
  | some c => exact h c hc

theorem headOKSpec {l : List Char} (h : headOK l) :
    ∀ c, l.head? = some c → isSpace c = false := by
  intro c hc
  unfold headOK at h
  rw [hc] at h
  exact h

theorem headOKOf {l : List Char} (h : ∀ c, l.head? = some c → isSpace c = false) :
    headOK l := by
  unfold headOK
  cases hc : l.head? with
  | none => trivial
  | some c => exact h c hc

theorem dropWhileNeNil {l : List Char} (hne : l ≠ []) (hlast : lastOK l) :
    l.dropWhile isSpace ≠ [] := by
  intro h
  rw [List.dropWhile_eq_nil_iff] at h
  have hmem := List.getLast_mem hne
  have hsp := h _ hmem
  have hgl := List.getLast?_eq_getLast l hne
  have hl := lastOKSpec hlast _ hgl
  rw [hl] at hsp
  cases hsp

theorem closeAfterWSFalse (B W rest' : List Char) (hne : B ≠ [])
    (hB : hasClose B = false) (hlast : lastOK B) (hW : ∀ c ∈ W, isSpace c = true) :
    closeAfterWS (B ++ (W ++ '*' :: '/' :: rest')) = false := by
  have hD := dropWhileNeNil hne hlast
  rw [closeAfterWS, dropWhileAppendLeft hD]
  cases hDW : B.dropWhile isSpace with
  | nil => exact absurd hDW hD
  | cons d D =>
    by_cases hd : d = '*'
    · cases D with
      | nil =>
        simp only [List.cons_append, List.nil_append]
        cases W with
        | nil =>
          rw [show ([] : List Char) ++ '*' :: '/' :: rest' = '*' :: '/' :: rest' from rfl]
          have : ¬('*' : Char) = '/' := by decide
          simp [startsWithClose, this]
        | cons w W' =>
          have hw := hW w (List.mem_cons_self w W')
          have hwv : w ≠ '/' := by
            intro he
            subst he
            exact absurd hw (by decide)
          simp [startsWithClose, hwv]
      | cons e D' =>
        by_cases he : e = '/'
        · exfalso
          have hsc : startsWithClose (B.dropWhile isSpace) = true := by
            rw [hDW, hd, he]
            exact startsWithCloseTrue D'
          have := hasCloseDropWhile (hasCloseOfStarts hsc)
          rw [hB] at this
          cases this
        · simp only [List.cons_append, startsWithClose, Bool.and_eq_false_iff]
          right
          simpa using he
    · rw [List.cons_append]
      exact startsWithCloseOfCons hd

theorem findGroupEndSpec : ∀ (B : List Char) (W rest : List Char), hasClose B = false →
    lastOK B → W ≠ [] → (∀ c ∈ W, isSpace c = true) →
    findGroupEnd (B ++ (W ++ '*' :: '/' :: rest)) = some (B, rest) := by
  intro B
  induction B with
  | nil =>
    intro W rest hB hlast hWne hW
    cases W with
    | nil => exact absurd rfl hWne
    | cons w W' =>
      simp only [List.nil_append, List.cons_append]
      rw [findGroupEnd]
      have hca : closeAfterWS (w :: (W' ++ '*' :: '/' :: rest)) = true := by
        rw [closeAfterWS]
        have := dropWhileAllSpace hW ('/' :: rest)
        simp only [List.cons_append] at this
        rw [this]
        exact startsWithCloseTrue rest
      rw [if_pos hca]
      have := dropWhileAllSpace hW ('/' :: rest)
      simp only [List.cons_append] at this
      rw [this]
      rfl
  | cons c B' ih =>
    intro W rest hB hlast hWne hW
    simp only [List.cons_append]
    rw [findGroupEnd]
    have hca : closeAfterWS (c :: (B' ++ (W ++ '*' :: '/' :: rest))) = false := by
      have h0 := closeAfterWSFalse (c :: B') W rest (List.cons_ne_nil c B') hB hlast hW
      simpa using h0
    rw [if_neg (by rw [hca]; simp)]
    have hB' : hasClose B' = false := hasCloseTail hB
    have hlast' : lastOK B' := by
      cases B' with
      | nil => trivial
      | cons e t =>
        apply lastOKOf
        intro x hx
        exact lastOKSpec hlast x (by rw [List.getLast?_cons_cons]; exact hx)
    have hrec := ih W rest hB' hlast' hWne hW
    simp only [List.append_assoc] at hrec ⊢
    rw [hrec]
    rfl

theorem take_openMarker (X : List Char) : (openMarker ++ X).take 8 = openMarker := by
  rw [List.take_append_eq_append_take]
  simp [openMarker]

theorem drop_openMarker (X : List Char) : (openMarker ++ X).drop 8 = X := by
  rw [List.drop_append_eq_append_drop]
  simp [openMarker]

theorem startsWithMarkerAppend (X : List Char) : startsWithMarker (openMarker ++ X) = true := by
  rw [startsWithMarker, take_openMarker]
  simp

theorem quakedMatchMarker (Y : List Char) :
    quakedMatch (openMarker ++ ' ' :: Y) = findGroupEnd (Y.dropWhile isSpace) := by
  rw [quakedMatch, if_pos (startsWithMarkerAppend _), drop_openMarker]
  show (if isSpace ' ' = true then findGroupEnd ((' ' :: Y).dropWhile isSpace) else none) = _
  rw [if_pos (by decide : isSpace ' ' = true)]
  rw [List.dropWhile_cons, if_pos (by decide : isSpace ' ' = true)]

theorem quakedMatchSome {l : List Char} {p : List Char × List Char}
    (h : quakedMatch l = some p) : startsWithMarker l = true := by
  by_cases hm : startsWithMarker l = true
  · exact hm
  · rw [quakedMatch, if_neg hm] at h
    cases h

theorem hasMarkerCons {c : Char} {r : List Char} :
    hasMarker (c :: r) = (startsWithMarker (c :: r) || hasMarker r) := rfl

theorem quakedSearchNone : ∀ {s : List Char}, hasMarker s = false → quakedSearch s = none := by
  intro s
  induction s with
  | nil => intro h; rfl
  | cons c r ih =>
    intro h
    rw [hasMarkerCons, Bool.or_eq_false_iff] at h
    rw [quakedSearch]
    cases hm : quakedMatch (c :: r) with
    | some p =>
      have := quakedMatchSome hm
      rw [h.1] at this
      cases this
    | none => exact ih h.2

theorem takeSeven (b b' : List Char) (hb : b.take 7 = b'.take 7) (a : List Char) (ha : a ≠ []) :
    startsWithMarker (a ++ b) = startsWithMarker (a ++ b') := by
  rw [startsWithMarker, startsWithMarker]
  have hlen : 1 ≤ a.length := by
    cases a with
    | nil => exact absurd rfl ha
    | cons x t => simp
  have h8 : 8 - a.length ≤ 7 := by omega
  have e1 : (a ++ b).take 8 = a.take 8 ++ b.take (8 - a.length) :=
    List.take_append_eq_append_take
  have e2 : (a ++ b').take 8 = a.take 8 ++ b'.take (8 - a.length) :=
    List.take_append_eq_append_take
  have e3 : b.take (8 - a.length) = b'.take (8 - a.length) := by
    have t1 : (b.take 7).take (8 - a.length) = b.take (8 - a.length) := by
      rw [List.take_take]
      congr 1
      omega
    have t2 : (b'.take 7).take (8 - a.length) = b'.take (8 - a.length) := by
      rw [List.take_take]
      congr 1
      omega
    rw [← t1, ← t2, hb]
  rw [e1, e2, e3]

theorem quakedSearchSkip : ∀ (pre : List Char) (X : List Char),
    hasMarker (pre ++ openMarker.take 7) = false →
    quakedSearch (pre ++ (openMarker ++ ' ' :: X)) = quakedSearch (openMarker ++ ' ' :: X) := by
  intro pre
  induction pre with
  | nil => intro X h; rfl
  | cons c pre' ih =>
    intro X h
    rw [List.cons_append, quakedSearch]
    have hm7 : hasMarker (c :: (pre' ++ openMarker.take 7)) = false := by
      simpa using h
    rw [hasMarkerCons, Bool.or_eq_false_iff] at hm7
    have hsm : startsWithMarker (c :: (pre' ++ (openMarker ++ ' ' :: X))) = false := by
      have ht : (openMarker ++ ' ' :: X).take 7 = (openMarker.take 7).take 7 := by
        rw [List.take_take]
        rw [List.take_append_eq_append_take]
        simp [openMarker]
      have := takeSeven (openMarker ++ ' ' :: X) (openMarker.take 7) ht (c :: pre')
        (List.cons_ne_nil c pre')
      simp only [List.cons_append] at this
      rw [this]
      exact hm7.1
    cases hqm : quakedMatch (c :: (pre' ++ (openMarker ++ ' ' :: X))) with
    | some p =>
      have := quakedMatchSome hqm
      rw [hsm] at this
      cases this
    | none => exact ih X hm7.2

/-!
The tokenizer reproduces a space-joined list of well-formed tokens.
-/

theorem takeWhileAll {p : Char → Bool} {l : List Char} (h : ∀ c ∈ l, p c = true) :
    l.takeWhile p = l := by
  induction l with
  | nil => rfl
  | cons c r ih =>
    rw [List.takeWhile_cons, if_pos (h c (List.mem_cons_self c r))]
    rw [ih (fun c hc => h c (List.mem_cons_of_mem _ hc))]

theorem dropWhileAll {p : Char → Bool} {l : List Char} (h : ∀ c ∈ l, p c = true) :
    l.dropWhile p = [] := by
  induction l with
  | nil => rfl
  | cons c r ih =>
    rw [List.dropWhile_cons, if_pos (h c (List.mem_cons_self c r))]
    exact ih (fun c hc => h c (List.mem_cons_of_mem _ hc))

theorem takeToCloseAppend : ∀ (inner : List Char), ')' ∉ inner →
    ∀ rest, takeToClose (inner ++ ')' :: rest) = (inner ++ [')'], rest) := by
  intro inner
  induction inner with
  | nil =>
    intro _ rest
    simp [takeToClose]
  | cons c r ih =>
    intro h rest
    have hc : c ≠ ')' := fun he => h (he ▸ List.mem_cons_self c r)
    have hr : ')' ∉ r := fun hm => h (List.mem_cons_of_mem _ hm)
    rw [List.cons_append, takeToClose]
    simp only [if_neg hc]
    rw [ih hr rest]
    rfl

theorem joinToks_cons {t t2 : List Char} {ts : List (List Char)} :
    joinToks (t :: t2 :: ts) = t ++ ' ' :: joinToks (t2 :: ts) := rfl

theorem plainTokHead {t : List Char} (h : plainTok t) :
    ∃ c r, t = c :: r ∧ isSpace c = false ∧ c ≠ '(' := by
  obtain ⟨hne, hsp, hhd⟩ := h
  cases t with
  | nil => exact absurd rfl hne
  | cons c r =>
    refine ⟨c, r, rfl, hsp c (List.mem_cons_self c r), ?_⟩
    intro he
    rw [List.head?_cons] at hhd
    exact hhd (by rw [he])

theorem tokenize_plain_append {t : List Char} (h : plainTok t) (rest : List Char)
    (hrest : rest.head? = some ' ') :
    tokenize (t ++ rest) = t :: tokenize (rest.dropWhile (fun a => !isSpace a)) := by
  obtain ⟨c, r, rfl, hcs, hcp⟩ := plainTokHead h
  have hsp : ∀ x ∈ r, isSpace x = false := fun x hx =>
    h.2.1 x (List.mem_cons_of_mem _ hx)
  obtain ⟨rest', rfl⟩ : ∃ rest', rest = ' ' :: rest' := by
    cases rest with
    | nil => cases hrest
    | cons a b =>
      rw [List.head?_cons, Option.some.injEq] at hrest
      exact ⟨b, by rw [hrest]⟩
  have hp : (c = '(' && (r ++ ' ' :: rest').contains ')') = false := by
    simp [hcp]
  rw [List.cons_append]
  rw [tokenize_cons_run hcs hp]
  have htw : (r ++ ' ' :: rest').takeWhile (fun a => !isSpace a) = r := by
    rw [takeWhileAppendStop (fun x hx => by rw [hsp x hx]; rfl)]
    rw [List.takeWhile_cons, if_neg (show ¬((!isSpace ' ') = true) by decide),
      List.append_nil]
  have hdw : (r ++ ' ' :: rest').dropWhile (fun a => !isSpace a) =
      (' ' :: rest').dropWhile (fun a => !isSpace a) := by
    rw [dropWhileAppendStop (fun x hx => by rw [hsp x hx]; rfl)]
  rw [htw, hdw]

theorem tokenize_plain_nil {t : List Char} (h : plainTok t) : tokenize t = [t] := by
  obtain ⟨c, r, rfl, hcs, hcp⟩ := plainTokHead h
  have hsp : ∀ x ∈ r, isSpace x = false := fun x hx =>
    h.2.1 x (List.mem_cons_of_mem _ hx)
  by_cases hco : r.contains ')' = true
  · by_cases hcc : c = '('
    · exact absurd hcc hcp
    · have hp : (c = '(' && r.contains ')') = false := by simp [hcc]
      rw [tokenize_cons_run hcs hp]
      have htw : r.takeWhile (fun a => !isSpace a) = r :=
        takeWhileAll (fun x hx => by rw [hsp x hx]; rfl)
      have hdw : r.dropWhile (fun a => !isSpace a) = [] :=
        dropWhileAll (fun x hx => by rw [hsp x hx]; rfl)
      rw [htw, hdw, tokenize_nil]
  · have hp : (c = '(' && r.contains ')') = false := by
      simp only [Bool.and_eq_false_iff]
      right
      exact Bool.eq_false_iff.mpr (fun h => hco h)
    rw [tokenize_cons_run hcs hp]
    have htw : r.takeWhile (fun a => !isSpace a) = r :=
      takeWhileAll (fun x hx => by rw [hsp x hx]; rfl)
    have hdw : r.dropWhile (fun a => !isSpace a) = [] :=
      dropWhileAll (fun x hx => by rw [hsp x hx]; rfl)
    rw [htw, hdw, tokenize_nil]

theorem tokenize_paren_append {inner : List Char} (hin : ')' ∉ inner) (rest : List Char) :
    tokenize (('(' :: inner ++ [')']) ++ rest) = ('(' :: inner ++ [')']) :: tokenize rest := by
  have hassoc : ('(' :: inner ++ [')']) ++ rest = '(' :: (inner ++ ')' :: rest) := by
    simp
  rw [hassoc]
  have hcontains : (inner ++ ')' :: rest).contains ')' = true := by
    rw [List.contains]
    exact List.elem_iff.mpr (by simp)
  rw [tokenize_cons_paren rfl hcontains, takeToCloseAppend inner hin rest]
  rfl

/-!
Length bounds for the search machinery, and fuel invariance for
extract_blocks.
-/

theorem findGroupEnd_len : ∀ (l : List Char) (p : List Char × List Char),
    findGroupEnd l = some p → p.2.length ≤ l.length := by
  intro l
  induction l with
  | nil => intro p h; simp [findGroupEnd] at h
  | cons c r ih =>
    intro p h
    rw [findGroupEnd] at h
    by_cases hc : closeAfterWS (c :: r) = true
    · rw [if_pos hc] at h
      cases h
      have h1 := lenDropWhileLe isSpace (c :: r)
      have h2 : (((c :: r).dropWhile isSpace).drop 2).length ≤ ((c :: r).dropWhile isSpace).length := by
        rw [List.length_drop]
        omega
      exact le_trans h2 h1
    · rw [if_neg hc] at h
      cases hq : findGroupEnd r with
      | none => rw [hq] at h; simp at h
      | some q =>
        rw [hq] at h
        rw [Option.map_some'] at h
        cases h
        have := ih q hq
        simp only [List.length_cons]
        omega

theorem quakedMatch_len : ∀ (l : List Char) (p : List Char × List Char),
    quakedMatch l = some p → p.2.length < l.length := by
  intro l p h
  unfold quakedMatch at h
  by_cases hm : startsWithMarker l = true
  · simp only [hm, if_true] at h
    cases hd : l.drop 8 with
    | nil => rw [hd] at h; simp at h
    | cons c r =>
      rw [hd] at h
      by_cases hs : isSpace c = true
      · simp only [hs, if_true] at h
        have h1 := findGroupEnd_len _ _ h
        have h2 := lenDropWhileLe isSpace (c :: r)
        have h3 : l.length ≥ 8 := by
          have : (l.take 8).length = 8 := by
            unfold startsWithMarker at hm
            have : l.take 8 = openMarker := by
              simpa using hm
            rw [this]; rfl
          have := List.length_take 8 l
          omega
        have h4 : (l.drop 8).length = l.length - 8 := List.length_drop 8 l
        rw [hd] at h4
        simp only [List.length_cons] at h4 h2
        omega
      · simp [hs] at h
  · simp [hm] at h

theorem quakedSearch_len : ∀ (l : List Char) (p : List Char × List Char),
    quakedSearch l = some p → p.2.length < l.length := by
  intro l
  induction l with
  | nil => intro p h; simp [quakedSearch] at h
  | cons c r ih =>
    intro p h
    unfold quakedSearch at h
    cases hm : quakedMatch (c :: r) with
    | some q =>
      rw [hm] at h
      cases h
      exact quakedMatch_len _ _ hm
    | none =>
      rw [hm] at h
      have := ih p h
      simp only [List.length_cons]
      omega

theorem extractGo_inv : ∀ f1 f2 s, s.length ≤ f1 → s.length ≤ f2 →
    extractGo f1 s = extractGo f2 s := by
  intro f1
  induction f1 with
  | zero =>
    intro f2 s h1 h2
    have hs : s = [] := List.length_eq_zero.mp (Nat.le_zero.mp h1)
    subst hs
    cases f2 with
    | zero => rfl
    | succ g => simp [extractGo, quakedSearch]
  | succ g1 ih =>
    intro f2 s h1 h2
    cases f2 with
    | zero =>
      have hs : s = [] := List.length_eq_zero.mp (Nat.le_zero.mp h2)
      subst hs
      simp [extractGo, quakedSearch]
    | succ g2 =>
      rw [extractGo, extractGo]
      cases hq : quakedSearch s with
      | none => rfl
      | some p =>
        have hl := quakedSearch_len s p hq
        show p.1 :: extractGo g1 p.2 = p.1 :: extractGo g2 p.2
        rw [ih g2 p.2 (by omega) (by omega)]

theorem extract_blocks_none {s : List Char} (h : quakedSearch s = none) :
    extract_blocks s = [] := by
  unfold extract_blocks
  cases s with
  | nil => rfl
  | cons c r =>
    rw [List.length_cons, extractGo, h]

theorem extract_blocks_some {s : List Char} {p : List Char × List Char}
    (h : quakedSearch s = some p) :
    extract_blocks s = p.1 :: extract_blocks p.2 := by
  unfold extract_blocks
  cases s with
  | nil => simp [quakedSearch] at h
  | cons c r =>
    rw [List.length_cons, extractGo, h]
    have hl := quakedSearch_len _ _ h
    show p.1 :: extractGo r.length p.2 = p.1 :: extractGo p.2.length p.2
    rw [extractGo_inv r.length p.2.length p.2 (by simp at hl; omega) le_rfl]

/-!
Character classes of the rendered numeric fields, and reproduction of
whitespace-joined runs by str.split.
-/

theorem intToDec_ne_nil (z : ℤ) : intToDec z ≠ [] := (intToDec_spec z).1

theorem isIntRun_intToDec (z : ℤ) : isIntRun (intToDec z) = true := (intToDec_spec z).2.1

theorem intRunVal_intToDec (z : ℤ) : intRunVal (intToDec z) = z := (intToDec_spec z).2.2.1

theorem intToDec_chars (z : ℤ) : ∀ c ∈ intToDec z, c.isDigit = true ∨ c = '-' :=
  (intToDec_spec z).2.2.2

theorem numChar_facts {c : Char} (h : c.isDigit = true ∨ c = '-' ∨ c = '.') :
    isSpace c = false ∧ c ≠ '(' ∧ c ≠ ')' ∧ c ≠ '\n' ∧ c ≠ '*' ∧ c ≠ '/' ∧ c ≠ '?' := by
  rcases h with h | h | h
  · exact ⟨isDigit_not_space h, isDigit_ne h (by decide), isDigit_ne h (by decide),
      isDigit_ne h (by decide), isDigit_ne h (by decide), isDigit_ne h (by decide),
      isDigit_ne h (by decide)⟩
  · subst h; exact ⟨by decide, by decide, by decide, by decide, by decide, by decide, by decide⟩
  · subst h; exact ⟨by decide, by decide, by decide, by decide, by decide, by decide, by decide⟩

theorem formatFixed1_tenth_chars (k : ℤ) :
    ∀ c ∈ formatFixed1 ((k : ℚ) / 10), c.isDigit = true ∨ c = '-' ∨ c = '.' := by
  rw [formatFixed1_tenth]
  intro c hc
  rcases List.mem_append.mp hc with hc | hc
  · rcases List.mem_append.mp hc with hc | hc
    · by_cases hk : k < 0
      · rw [if_pos hk] at hc
        rcases List.mem_singleton.mp hc with h
        exact Or.inr (Or.inl h)
      · rw [if_neg hk] at hc
        cases hc
    · exact Or.inl (natToDec_digits _ c hc)
  · rcases List.mem_cons.mp hc with h | h
    · exact Or.inr (Or.inr h)
    · rcases List.mem_singleton.mp h with h
      subst h
      exact Or.inl (decDigit_isDigit (Nat.mod_lt _ (by omega)))

theorem formatFixed1_tenth_ne_nil (k : ℤ) : formatFixed1 ((k : ℚ) / 10) ≠ [] := by
  rw [formatFixed1_tenth]
  intro h
  have := congrArg List.length h
  simp [List.length_append] at this

theorem formatFixed1_mkRatFast (k : ℤ) :
    formatFixed1 (mkRatFast k 10) = formatFixed1 ((k : ℚ) / 10) := by
  rw [mkRatFast_eq]
  norm_num

theorem wsSplit_run_nil {t : List Char} (h : t ≠ []) (ha : ∀ c ∈ t, isSpace c = false) :
    wsSplit t = [t] := by
  cases t with
  | nil => exact absurd rfl h
  | cons c r =>
    rw [wsSplit_cons_run (ha c (List.mem_cons_self c r))]
    have hr : ∀ x ∈ r, isSpace x = false := fun x hx => ha x (List.mem_cons_of_mem _ hx)
    rw [takeWhileAll (fun x hx => by rw [hr x hx]; rfl),
      dropWhileAll (fun x hx => by rw [hr x hx]; rfl), wsSplit_nil]

theorem wsSplit_run_append {t : List Char} (h : t ≠ []) (ha : ∀ c ∈ t, isSpace c = false)
    (rest : List Char) :
    wsSplit (t ++ ' ' :: rest) = t :: wsSplit rest := by
  cases t with
  | nil => exact absurd rfl h
  | cons c r =>
    have hr : ∀ x ∈ r, isSpace x = false := fun x hx => ha x (List.mem_cons_of_mem _ hx)
    rw [List.cons_append, wsSplit_cons_run (ha c (List.mem_cons_self c r))]
    rw [takeWhileAppendStop (fun x hx => by rw [hr x hx]; rfl),
      dropWhileAppendStop (fun x hx => by rw [hr x hx]; rfl)]
    rw [List.takeWhile_cons, if_neg (show ¬((!isSpace ' ') = true) by decide), List.append_nil]
    rw [List.dropWhile_cons, if_neg (show ¬((!isSpace ' ') = true) by decide)]
    rw [wsSplit_cons_space (show isSpace ' ' = true by decide)]

theorem wsSplit_join3 {a b c : List Char} (hae : a ≠ []) (hbe : b ≠ []) (hce : c ≠ [])
    (haw : ∀ x ∈ a, isSpace x = false) (hbw : ∀ x ∈ b, isSpace x = false)
    (hcw : ∀ x ∈ c, isSpace x = false) :
    wsSplit (a ++ ' ' :: (b ++ ' ' :: c)) = [a, b, c] := by
  rw [wsSplit_run_append hae haw, wsSplit_run_append hbe hbw, wsSplit_run_nil hce hcw]

/-!
The rendered colour and bounding-box tokens: strip('()'), shape checks and
numeric round trips.
-/

theorem dropWhileNoneOf {p : Char → Bool} {l : List Char} (h : ∀ c ∈ l, p c = false) :
    l.dropWhile p = l := by
  cases l with
  | nil => rfl
  | cons c r =>
    rw [List.dropWhile_cons, if_neg]
    rw [h c (List.mem_cons_self c r)]
    simp

theorem stripParens_wrap {inner : List Char} (h : ∀ c ∈ inner, isParen c = false) :
    stripParens ('(' :: (inner ++ [')'])) = inner := by
  unfold stripParens
  rw [List.dropWhile_cons, if_pos (by decide)]
  cases inner with
  | nil => rfl
  | cons c r =>
    have hc : isParen c = false := h c (List.mem_cons_self c r)
    rw [List.cons_append, List.dropWhile_cons, if_neg (by rw [hc]; simp)]
    have h1 : (c :: (r ++ [')'])).reverse = ')' :: (c :: r).reverse := by
      rw [← List.cons_append, List.reverse_append]
      rfl
    rw [h1, List.dropWhile_cons, if_pos (by decide)]
    rw [dropWhileNoneOf (fun x hx => h x (List.mem_reverse.mp hx))]
    exact List.reverse_reverse _

theorem colorShape_wrap {X : List Char} (h : (wsSplit X).length = 3) :
    colorShape ('(' :: (X ++ [')'])) = true := by
  simp only [colorShape]
  rw [List.getLast?_concat, List.dropLast_concat, h]
  simp

theorem intTripleShape_wrap {X : List Char} (h : (wsSplit X).length = 3)
    (ha : (wsSplit X).all isIntRun = true) :
    intTripleShape ('(' :: (X ++ [')'])) = true := by
  simp only [intTripleShape]
  rw [List.getLast?_concat, List.dropLast_concat, h, ha]
  simp

theorem rgbStrOf_eq (r0 r1 r2 : ℚ) :
    rgbStrOf r0 r1 r2 =
      '(' :: ((formatFixed1 r0 ++ ' ' :: (formatFixed1 r1 ++ ' ' :: formatFixed1 r2)) ++ [')']) := by
  unfold rgbStrOf
  simp [List.append_assoc, List.cons_append]

theorem tripleStrOf_eq (a0 a1 a2 : ℤ) :
    tripleStrOf a0 a1 a2 =
      '(' :: ((intToDec a0 ++ ' ' :: (intToDec a1 ++ ' ' :: intToDec a2)) ++ [')']) := by
  unfold tripleStrOf
  simp [List.append_assoc, List.cons_append]

theorem formatFixed1_tenth_nonWS (k : ℤ) :
    ∀ c ∈ formatFixed1 ((k : ℚ) / 10), isSpace c = false :=
  fun c hc => (numChar_facts (formatFixed1_tenth_chars k c hc)).1

theorem intToDec_nonWS (z : ℤ) : ∀ c ∈ intToDec z, isSpace c = false :=
  fun c hc => (numChar_facts (Or.elim (intToDec_chars z c hc) Or.inl
    (fun h => Or.inr (Or.inl h)))).1

theorem wsSplit_rgb_inner (k0 k1 k2 : ℤ) :
    wsSplit (formatFixed1 ((k0 : ℚ) / 10) ++ ' ' ::
        (formatFixed1 ((k1 : ℚ) / 10) ++ ' ' :: formatFixed1 ((k2 : ℚ) / 10))) =
      [formatFixed1 ((k0 : ℚ) / 10), formatFixed1 ((k1 : ℚ) / 10), formatFixed1 ((k2 : ℚ) / 10)] :=
  wsSplit_join3 (formatFixed1_tenth_ne_nil k0) (formatFixed1_tenth_ne_nil k1)
    (formatFixed1_tenth_ne_nil k2) (formatFixed1_tenth_nonWS k0) (formatFixed1_tenth_nonWS k1)
    (formatFixed1_tenth_nonWS k2)

theorem wsSplit_triple_inner (a0 a1 a2 : ℤ) :
    wsSplit (intToDec a0 ++ ' ' :: (intToDec a1 ++ ' ' :: intToDec a2)) =
      [intToDec a0, intToDec a1, intToDec a2] :=
  wsSplit_join3 (intToDec_ne_nil a0) (intToDec_ne_nil a1) (intToDec_ne_nil a2)
    (intToDec_nonWS a0) (intToDec_nonWS a1) (intToDec_nonWS a2)

theorem colorShape_rgbStrOf (k0 k1 k2 : ℤ) :
    colorShape (rgbStrOf ((k0 : ℚ) / 10) ((k1 : ℚ) / 10) ((k2 : ℚ) / 10)) = true := by
  rw [rgbStrOf_eq]
  apply colorShape_wrap
  rw [wsSplit_rgb_inner]
  rfl

theorem intTripleShape_tripleStrOf (a0 a1 a2 : ℤ) :
    intTripleShape (tripleStrOf a0 a1 a2) = true := by
  rw [tripleStrOf_eq]
  apply intTripleShape_wrap
  · rw [wsSplit_triple_inner]
    rfl
  · rw [wsSplit_triple_inner]
    simp [List.all_eq_true, isIntRun_intToDec]

theorem formatFixed1_tenth_noParen (k : ℤ) :
    ∀ c ∈ formatFixed1 ((k : ℚ) / 10), isParen c = false := by
  intro c hc
  have h := numChar_facts (formatFixed1_tenth_chars k c hc)
  unfold isParen
  rcases h with ⟨-, h1, h2, -⟩
  simp [h1, h2]

theorem intToDec_noParen (z : ℤ) : ∀ c ∈ intToDec z, isParen c = false := by
  intro c hc
  have h := numChar_facts (Or.elim (intToDec_chars z c hc) Or.inl
    (fun h => Or.inr (Or.inl h)))
  unfold isParen
  rcases h with ⟨-, h1, h2, -⟩
  simp [h1, h2]

theorem stripParens_rgbStrOf (k0 k1 k2 : ℤ) :
    stripParens (rgbStrOf ((k0 : ℚ) / 10) ((k1 : ℚ) / 10) ((k2 : ℚ) / 10)) =
      formatFixed1 ((k0 : ℚ) / 10) ++ ' ' ::
        (formatFixed1 ((k1 : ℚ) / 10) ++ ' ' :: formatFixed1 ((k2 : ℚ) / 10)) := by
  rw [rgbStrOf_eq]
  apply stripParens_wrap
  intro c hc
  rcases List.mem_append.mp hc with h | h
  · exact formatFixed1_tenth_noParen k0 c h
  · rcases List.mem_cons.mp h with h | h
    · subst h; rfl
    · rcases List.mem_append.mp h with h | h
      · exact formatFixed1_tenth_noParen k1 c h
      · rcases List.mem_cons.mp h with h | h
        · subst h; rfl
        · exact formatFixed1_tenth_noParen k2 c h

theorem stripParens_tripleStrOf (a0 a1 a2 : ℤ) :
    stripParens (tripleStrOf a0 a1 a2) =
      intToDec a0 ++ ' ' :: (intToDec a1 ++ ' ' :: intToDec a2) := by
  rw [tripleStrOf_eq]
  apply stripParens_wrap
  intro c hc
  rcases List.mem_append.mp hc with h | h
  · exact intToDec_noParen a0 c h
  · rcases List.mem_cons.mp h with h | h
    · subst h; rfl
    · rcases List.mem_append.mp h with h | h
      · exact intToDec_noParen a1 c h
      · rcases List.mem_cons.mp h with h | h
        · subst h; rfl
        · exact intToDec_noParen a2 c h

theorem parseFloatList_rgb (k0 k1 k2 : ℤ) :
    parseFloatList (wsSplit (stripParens
        (rgbStrOf ((k0 : ℚ) / 10) ((k1 : ℚ) / 10) ((k2 : ℚ) / 10)))) =
      some [(k0 : ℚ) / 10, (k1 : ℚ) / 10, (k2 : ℚ) / 10] := by
  rw [stripParens_rgbStrOf, wsSplit_rgb_inner]
  simp only [parseFloatList, parseFloat_formatFixed1]

theorem intListOf_tripleStrOf (a0 a1 a2 : ℤ) :
    intListOf (tripleStrOf a0 a1 a2) = [a0, a1, a2] := by
  unfold intListOf
  rw [stripParens_tripleStrOf, wsSplit_triple_inner]
  simp [intRunVal_intToDec]

/-!
The space-joined header line: nonemptiness, boundary characters, close-marker
freedom and flattening of nested joins.
-/

theorem joinToks_cons2 {t : List Char} {ts : List (List Char)} (h : ts ≠ []) :
    joinToks (t :: ts) = t ++ ' ' :: joinToks ts := by
  cases ts with
  | nil => exact absurd rfl h
  | cons t2 ts' => rfl

theorem joinToks_ne_nil {t : List Char} (h : t ≠ []) (ts : List (List Char)) :
    joinToks (t :: ts) ≠ [] := by
  cases ts with
  | nil => exact h
  | cons t2 ts' =>
    rw [joinToks_cons]
    cases t with
    | nil => exact absurd rfl h
    | cons c r => simp

theorem joinToks_head? {t : List Char} (h : t ≠ []) (ts : List (List Char)) :
    (joinToks (t :: ts)).head? = t.head? := by
  cases ts with
  | nil => rfl
  | cons t2 ts' =>
    rw [joinToks_cons]
    exact List.head?_append_of_ne_nil _ h

theorem joinToks_lastOK : ∀ {ts : List (List Char)}, ts ≠ [] →
    (∀ t ∈ ts, t ≠ [] ∧ lastOK t) → lastOK (joinToks ts) := by
  intro ts
  induction ts with
  | nil => intro h; exact absurd rfl h
  | cons t ts' ih =>
    intro _ hall
    cases ts' with
    | nil => exact (hall t (List.mem_cons_self t [])).2
    | cons t2 ts'' =>
      rw [joinToks_cons]
      have hrec : lastOK (joinToks (t2 :: ts'')) :=
        ih (by simp) (fun x hx => hall x (List.mem_cons_of_mem _ hx))
      have hne : joinToks (t2 :: ts'') ≠ [] :=
        joinToks_ne_nil (hall t2 (List.mem_cons_of_mem _ (List.mem_cons_self t2 ts''))).1 ts''
      unfold lastOK
      rw [List.getLast?_append_of_ne_nil _ (show ' ' :: joinToks (t2 :: ts'') ≠ [] by simp)]
      have h2 : (' ' :: joinToks (t2 :: ts'')).getLast? = (joinToks (t2 :: ts'')).getLast? := by
        have := List.getLast?_append_of_ne_nil [' '] hne
        simpa using this
      rw [h2]
      exact hrec

theorem joinToks_headOK {t : List Char} (h : t ≠ []) (hh : headOK t)
    (ts : List (List Char)) : headOK (joinToks (t :: ts)) := by
  unfold headOK
  rw [joinToks_head? h]
  exact hh

theorem hasClose_sep : ∀ (a : List Char) {b : List Char} {c : Char},
    hasClose a = false → hasClose b = false → c ≠ '*' → c ≠ '/' →
    hasClose (a ++ c :: b) = false := by
  intro a
  induction a with
  | nil =>
    intro b c _ hb hc1 hc2
    rw [List.nil_append, hasCloseCons, Bool.or_eq_false_iff]
    refine ⟨?_, hb⟩
    cases b with
    | nil => rfl
    | cons d b' =>
      unfold startsWithClose
      simp [hc1]
  | cons x a' ih =>
    intro b c ha hb hc1 hc2
    rw [hasCloseCons, Bool.or_eq_false_iff] at ha
    rw [List.cons_append, hasCloseCons, Bool.or_eq_false_iff]
    refine ⟨?_, ih ha.2 hb hc1 hc2⟩
    cases a' with
    | nil =>
      unfold startsWithClose
      simp [hc2]
    | cons y a'' =>
      have := ha.1
      unfold startsWithClose at this ⊢
      exact this

theorem hasClose_join : ∀ {ts : List (List Char)},
    (∀ t ∈ ts, hasClose t = false) → hasClose (joinToks ts) = false := by
  intro ts
  induction ts with
  | nil => intro _; rfl
  | cons t ts' ih =>
    intro hall
    cases ts' with
    | nil => exact hall t (List.mem_cons_self t [])
    | cons t2 ts'' =>
      rw [joinToks_cons]
      exact hasClose_sep t (hall t (List.mem_cons_self t _))
        (ih (fun x hx => hall x (List.mem_cons_of_mem _ hx))) (by decide) (by decide)

theorem joinToks_mem : ∀ {ts : List (List Char)} {c : Char}, c ∈ joinToks ts →
    c = ' ' ∨ ∃ t ∈ ts, c ∈ t := by
  intro ts
  induction ts with
  | nil => intro c hc; cases hc
  | cons t ts' ih =>
    intro c hc
    cases ts' with
    | nil => exact Or.inr ⟨t, List.mem_cons_self t [], hc⟩
    | cons t2 ts'' =>
      rw [joinToks_cons] at hc
      rcases List.mem_append.mp hc with h | h
      · exact Or.inr ⟨t, List.mem_cons_self t _, h⟩
      · rcases List.mem_cons.mp h with h | h
        · exact Or.inl h
        · rcases ih h with h | ⟨u, hu, hcu⟩
          · exact Or.inl h
          · exact Or.inr ⟨u, List.mem_cons_of_mem _ hu, hcu⟩

theorem joinToks_append_single : ∀ (xs : List (List Char)) {ys : List (List Char)},
    ys ≠ [] → joinToks (xs ++ [joinToks ys]) = joinToks (xs ++ ys) := by
  intro xs
  induction xs with
  | nil => intro ys _; simp [joinToks]
  | cons x xs' ih =>
    intro ys hys
    rw [List.cons_append, List.cons_append]
    rw [joinToks_cons2 (by simp), joinToks_cons2 (by simp [hys])]
    rw [ih hys]

/-!
The tokenizer reproduces a space-join of well-formed tokens exactly.
-/

theorem tokenize_space_join {J : List Char} :
    tokenize ((' ' :: J).dropWhile (fun a => !isSpace a)) = tokenize J := by
  rw [List.dropWhile_cons, if_neg (show ¬((!isSpace ' ') = true) by decide)]
  exact tokenize_cons_space (by decide)

theorem tokenize_joinToks : ∀ {ts : List (List Char)}, (∀ t ∈ ts, wfTok t) →
    tokenize (joinToks ts) = ts := by
  intro ts
  induction ts with
  | nil => intro _; exact tokenize_nil
  | cons t ts' ih =>
    intro hall
    have hwf : wfTok t := hall t (List.mem_cons_self t ts')
    have hrec : tokenize (joinToks ts') = ts' :=
      ih (fun x hx => hall x (List.mem_cons_of_mem _ hx))
    cases ts' with
    | nil =>
      show tokenize t = [t]
      rcases hwf with hp | ⟨inner, rfl, hin⟩
      · exact tokenize_plain_nil hp
      · have := tokenize_paren_append hin []
        rw [List.append_nil] at this
        rw [this, tokenize_nil]
    | cons t2 ts'' =>
      rw [joinToks_cons]
      rcases hwf with hp | ⟨inner, rfl, hin⟩
      · rw [tokenize_plain_append hp (' ' :: joinToks (t2 :: ts'')) rfl]
        rw [tokenize_space_join, hrec]
      · have h1 : ('(' :: inner ++ [')']) ++ ' ' :: joinToks (t2 :: ts'') =
            ('(' :: inner ++ [')']) ++ ' ' :: joinToks (t2 :: ts'') := rfl
        rw [tokenize_paren_append hin (' ' :: joinToks (t2 :: ts''))]
        rw [tokenize_cons_space (show isSpace ' ' = true by decide), hrec]

/-!
Header/body splitting and the search on well-formed encoded blocks.
-/

theorem breakAtNL_noNL {l : List Char} (h : ∀ c ∈ l, c ≠ '\n') :
    breakAtNL l = (l, none) := by
  induction l with
  | nil => rfl
  | cons c r ih =>
    rw [breakAtNL, if_neg (h c (List.mem_cons_self c r))]
    rw [ih (fun x hx => h x (List.mem_cons_of_mem _ hx))]

theorem breakAtNL_append {a : List Char} (h : ∀ c ∈ a, c ≠ '\n') (b : List Char) :
    breakAtNL (a ++ '\n' :: b) = (a, some ('\n' :: b)) := by
  induction a with
  | nil =>
    rw [List.nil_append, breakAtNL, if_pos rfl]
  | cons c r ih =>
    rw [List.cons_append, breakAtNL, if_neg (h c (List.mem_cons_self c r))]
    rw [ih (fun x hx => h x (List.mem_cons_of_mem _ hx))]

theorem splitHeader_noNL {l : List Char} (h : ∀ c ∈ l, c ≠ '\n') :
    splitHeader l = (l, []) := by
  unfold splitHeader
  rw [breakAtNL_noNL h]

theorem splitHeader_append {a : List Char} (h : ∀ c ∈ a, c ≠ '\n') (b : List Char) :
    splitHeader (a ++ '\n' :: b) = (strip a, strip b) := by
  unfold splitHeader
  rw [breakAtNL_append h b]
  show (strip a, strip ('\n' :: b)) = (strip a, strip b)
  rw [strip_cons_space (by decide : isSpace '\n' = true)]

theorem tokenize_ne_nil {c : Char} {r : List Char} (hc : isSpace c = false) :
    tokenize (c :: r) ≠ [] := by
  by_cases hp : (c = '(' && r.contains ')') = true
  · obtain ⟨hcc, hrc⟩ : c = '(' ∧ r.contains ')' = true := by simpa using hp
    rw [tokenize_cons_paren hcc hrc]
    simp
  · rw [tokenize_cons_run hc (Bool.eq_false_iff.mpr hp)]
    simp

theorem quakedSearchOfMatch : ∀ {l : List Char} {p : List Char × List Char},
    quakedMatch l = some p → quakedSearch l = some p := by
  intro l p h
  cases l with
  | nil =>
    rw [show quakedMatch ([] : List Char) = none from rfl] at h
    cases h
  | cons c r =>
    unfold quakedSearch
    rw [h]

theorem searchOfBlock {B W post : List Char} (hB : strip B = B) (hc : hasClose B = false)
    (hWne : W ≠ []) (hW : ∀ c ∈ W, isSpace c = true) :
    quakedSearch (openMarker ++ ' ' :: (B ++ (W ++ '*' :: '/' :: post))) = some (B, post) := by
  apply quakedSearchOfMatch
  rw [quakedMatchMarker]
  cases B with
  | nil =>
    rw [List.nil_append]
    have h1 : (W ++ '*' :: '/' :: post).dropWhile isSpace = '*' :: '/' :: post :=
      dropWhileAllSpace hW ('/' :: post)
    rw [h1, findGroupEnd]
    have hca : closeAfterWS ('*' :: '/' :: post) = true := by
      rw [closeAfterWS, List.dropWhile_cons,
        if_neg (show ¬(isSpace '*' = true) by decide)]
      exact startsWithCloseTrue post
    rw [if_pos hca, List.dropWhile_cons, if_neg (show ¬(isSpace '*' = true) by decide)]
    rfl
  | cons b B' =>
    have hhead : isSpace b = false := by
      have := headOKOfStrip hB
      unfold headOK at this
      simpa using this
    rw [List.cons_append, List.dropWhile_cons, if_neg (by rw [hhead]; simp)]
    have := findGroupEndSpec (b :: B') W post hc (lastOKOfStrip hB) hWne hW
    simpa using this

/-!
Token-level facts about the rendered header fields.
-/

theorem plainTok_of_goodTok {t : List Char} (h : goodTok t) : plainTok t := by
  obtain ⟨hne, hch, -⟩ := h
  refine ⟨hne, fun c hc => (hch c hc).1, ?_⟩
  cases t with
  | nil => exact absurd rfl hne
  | cons c r =>
    rw [List.head?_cons]
    intro he
    exact (hch c (List.mem_cons_self c r)).2.1 (by injection he)

theorem parenTok_rgbStrOf (k0 k1 k2 : ℤ) :
    parenTok (rgbStrOf ((k0 : ℚ) / 10) ((k1 : ℚ) / 10) ((k2 : ℚ) / 10)) := by
  refine ⟨formatFixed1 ((k0 : ℚ) / 10) ++ ' ' ::
    (formatFixed1 ((k1 : ℚ) / 10) ++ ' ' :: formatFixed1 ((k2 : ℚ) / 10)), ?_, ?_⟩
  · rw [rgbStrOf_eq]
    simp
  · intro hm
    rcases List.mem_append.mp hm with h | h
    · exact absurd rfl (numChar_facts (formatFixed1_tenth_chars k0 _ h)).2.2.1
    · rcases List.mem_cons.mp h with h | h
      · exact absurd h.symm (by decide)
      · rcases List.mem_append.mp h with h | h
        · exact absurd rfl (numChar_facts (formatFixed1_tenth_chars k1 _ h)).2.2.1
        · rcases List.mem_cons.mp h with h | h
          · exact absurd h.symm (by decide)
          · exact absurd rfl (numChar_facts (formatFixed1_tenth_chars k2 _ h)).2.2.1

theorem parenTok_tripleStrOf (a0 a1 a2 : ℤ) : parenTok (tripleStrOf a0 a1 a2) := by
  refine ⟨intToDec a0 ++ ' ' :: (intToDec a1 ++ ' ' :: intToDec a2), ?_, ?_⟩
  · rw [tripleStrOf_eq]
    simp
  · intro hm
    have hni : ∀ z : ℤ, ')' ∈ intToDec z → False := by
      intro z h
      rcases intToDec_chars z _ h with h1 | h1
      · exact absurd rfl (numChar_facts (Or.inl h1)).2.2.1
      · exact absurd h1 (by decide)
    rcases List.mem_append.mp hm with h | h
    · exact hni a0 h
    · rcases List.mem_cons.mp h with h | h
      · exact absurd h.symm (by decide)
      · rcases List.mem_append.mp h with h | h
        · exact hni a1 h
        · rcases List.mem_cons.mp h with h | h
          · exact absurd h.symm (by decide)
          · exact hni a2 h

theorem plainTok_q : plainTok ['?'] := by
  refine ⟨by decide, ?_, by decide⟩
  intro c hc
  rcases List.mem_singleton.mp hc with h
  subst h
  decide

theorem rgbStrOf_chars (k0 k1 k2 : ℤ) :
    ∀ c ∈ rgbStrOf ((k0 : ℚ) / 10) ((k1 : ℚ) / 10) ((k2 : ℚ) / 10),
      c = '(' ∨ c = ')' ∨ c = ' ' ∨ (c.isDigit = true ∨ c = '-' ∨ c = '.') := by
  intro c hc
  rw [rgbStrOf_eq] at hc
  rcases List.mem_cons.mp hc with h | h
  · exact Or.inl h
  · rcases List.mem_append.mp h with h | h
    · rcases List.mem_append.mp h with h | h
      · exact Or.inr (Or.inr (Or.inr (formatFixed1_tenth_chars k0 c h)))
      · rcases List.mem_cons.mp h with h | h
        · exact Or.inr (Or.inr (Or.inl h))
        · rcases List.mem_append.mp h with h | h
          · exact Or.inr (Or.inr (Or.inr (formatFixed1_tenth_chars k1 c h)))
          · rcases List.mem_cons.mp h with h | h
            · exact Or.inr (Or.inr (Or.inl h))
            · exact Or.inr (Or.inr (Or.inr (formatFixed1_tenth_chars k2 c h)))
    · rcases List.mem_singleton.mp h with h
      exact Or.inr (Or.inl h)

theorem tripleStrOf_chars (a0 a1 a2 : ℤ) :
    ∀ c ∈ tripleStrOf a0 a1 a2,
      c = '(' ∨ c = ')' ∨ c = ' ' ∨ (c.isDigit = true ∨ c = '-' ∨ c = '.') := by
  intro c hc
  rw [tripleStrOf_eq] at hc
  have hid : ∀ z : ℤ, c ∈ intToDec z →
      c = '(' ∨ c = ')' ∨ c = ' ' ∨ (c.isDigit = true ∨ c = '-' ∨ c = '.') := by
    intro z h
    rcases intToDec_chars z c h with h1 | h1
    · exact Or.inr (Or.inr (Or.inr (Or.inl h1)))
    · exact Or.inr (Or.inr (Or.inr (Or.inr (Or.inl h1))))
  rcases List.mem_cons.mp hc with h | h
  · exact Or.inl h
  · rcases List.mem_append.mp h with h | h
    · rcases List.mem_append.mp h with h | h
      · exact hid a0 h
      · rcases List.mem_cons.mp h with h | h
        · exact Or.inr (Or.inr (Or.inl h))
        · rcases List.mem_append.mp h with h | h
          · exact hid a1 h
          · rcases List.mem_cons.mp h with h | h
            · exact Or.inr (Or.inr (Or.inl h))
            · exact hid a2 h
    · rcases List.mem_singleton.mp h with h
      exact Or.inr (Or.inl h)

theorem fieldChar_facts {c : Char}
    (h : c = '(' ∨ c = ')' ∨ c = ' ' ∨ (c.isDigit = true ∨ c = '-' ∨ c = '.')) :
    c ≠ '*' ∧ c ≠ '\n' := by
  rcases h with h | h | h | h
  · subst h; exact ⟨by decide, by decide⟩
  · subst h; exact ⟨by decide, by decide⟩
  · subst h; exact ⟨by decide, by decide⟩
  · have := numChar_facts h
    exact ⟨this.2.2.2.2.1, this.2.2.2.1⟩

theorem hasClose_of_no_star : ∀ {l : List Char}, '*' ∉ l → hasClose l = false := by
  intro l
  induction l with
  | nil => intro _; rfl
  | cons c r ih =>
    intro h
    rw [hasCloseCons, Bool.or_eq_false_iff]
    refine ⟨?_, ih (fun hm => h (List.mem_cons_of_mem _ hm))⟩
    have hc : c ≠ '*' := fun he => h (he ▸ List.mem_cons_self c r)
    cases r with
    | nil => rfl
    | cons d r' =>
      unfold startsWithClose
      simp [hc]

theorem hasClose_rgbStrOf (k0 k1 k2 : ℤ) :
    hasClose (rgbStrOf ((k0 : ℚ) / 10) ((k1 : ℚ) / 10) ((k2 : ℚ) / 10)) = false :=
  hasClose_of_no_star (fun hm => (fieldChar_facts (rgbStrOf_chars k0 k1 k2 _ hm)).1 rfl)

theorem hasClose_tripleStrOf (a0 a1 a2 : ℤ) :
    hasClose (tripleStrOf a0 a1 a2) = false :=
  hasClose_of_no_star (fun hm => (fieldChar_facts (tripleStrOf_chars a0 a1 a2 _ hm)).1 rfl)

theorem lastOK_rgbStrOf (k0 k1 k2 : ℤ) :
    lastOK (rgbStrOf ((k0 : ℚ) / 10) ((k1 : ℚ) / 10) ((k2 : ℚ) / 10)) := by
  apply lastOKOf
  intro c hc
  rw [rgbStrOf_eq, ← List.cons_append, List.getLast?_concat] at hc
  injection hc with hc
  subst hc
  decide

theorem lastOK_tripleStrOf (a0 a1 a2 : ℤ) : lastOK (tripleStrOf a0 a1 a2) := by
  apply lastOKOf
  intro c hc
  rw [tripleStrOf_eq, ← List.cons_append, List.getLast?_concat] at hc
  injection hc with hc
  subst hc
  decide

theorem rgbStrOf_ne_nil (r0 r1 r2 : ℚ) : rgbStrOf r0 r1 r2 ≠ [] := by
  unfold rgbStrOf
  simp

theorem tripleStrOf_ne_nil (a0 a1 a2 : ℤ) : tripleStrOf a0 a1 a2 ≠ [] := by
  unfold tripleStrOf
  simp

/-!
Flattening of the joined header line.
-/

theorem joinToks_append : ∀ {ys : List (List Char)} (ws : List (List Char)), ys ≠ [] → ws ≠ [] →
    joinToks (ys ++ ws) = joinToks ys ++ ' ' :: joinToks ws := by
  intro ys
  induction ys with
  | nil => intro ws h _; exact absurd rfl h
  | cons y ys' ih =>
    intro ws _ hws
    cases ys' with
    | nil =>
      rw [List.cons_append, List.nil_append, joinToks_cons2 hws]
      rfl
    | cons y2 ys'' =>
      rw [List.cons_append, joinToks_cons2 (by simp), joinToks_cons]
      rw [ih ws (by simp) hws]
      simp

theorem joinToks_flat3 (a b : List Char) {bs fs : List (List Char)}
    (hbs : bs ≠ []) (hfs : fs ≠ []) :
    joinToks ([a, b] ++ bs ++ fs) =
      a ++ ' ' :: (b ++ ' ' :: (joinToks bs ++ ' ' :: joinToks fs)) := by
  rw [joinToks_append fs (by simp) hfs, joinToks_append bs (by simp) hbs]
  show (((a ++ ' ' :: b) ++ ' ' :: joinToks bs) ++ ' ' :: joinToks fs) = _
  simp

theorem joinToks_flat2 (a b : List Char) {bs : List (List Char)} (hbs : bs ≠ []) :
    joinToks ([a, b] ++ bs) = a ++ ' ' :: (b ++ ' ' :: joinToks bs) := by
  rw [joinToks_append bs (by simp) hbs]
  show ((a ++ ' ' :: b) ++ ' ' :: joinToks bs) = _
  simp

/-!
The colour and bounding-box stages on the tokens an encoded record yields.
-/

theorem colorStage_good (nm : List Char) (k0 k1 k2 : ℤ) (rest : List (List Char)) :
    colorStage (nm :: rgbStrOf ((k0 : ℚ) / 10) ((k1 : ℚ) / 10) ((k2 : ℚ) / 10) :: rest) =
      ⟨[(k0 : ℚ) / 10, (k1 : ℚ) / 10, (k2 : ℚ) / 10], 2,
        [rgbStrOf ((k0 : ℚ) / 10) ((k1 : ℚ) / 10) ((k2 : ℚ) / 10)]⟩ := by
  unfold colorStage
  simp only [List.get?_cons_succ, List.get?_cons_zero]
  rw [colorShape_rgbStrOf, parseFloatList_rgb]
  rfl

theorem bboxStage_q {parts : List (List Char)} {i : ℕ} (h : parts.get? i = some ['?']) :
    bboxStage parts i = ⟨none, none, i + 1, [['?']]⟩ := by
  unfold bboxStage
  rw [h]
  rfl

theorem bboxStage_pair {parts : List (List Char)} {i : ℕ} {A B : List Char}
    (hA : parts.get? i = some A) (hAq : A ≠ ['?']) (hAs : intTripleShape A = true)
    (hB : parts.get? (i + 1) = some B) (hBs : intTripleShape B = true) :
    bboxStage parts i = ⟨some (intListOf A), some (intListOf B), i + 2, [A, B]⟩ := by
  unfold bboxStage
  rw [hA]
  show (if A = ['?'] then _ else _) = _
  rw [if_neg hAq, hAs]
  show (match parts.get? (i + 1) with
    | some t2 => if intTripleShape t2 = true then
        (⟨some (intListOf A), some (intListOf t2), i + 2, [A, t2]⟩ : BBoxRes)
      else ⟨some (intListOf A), none, i + 1, [A]⟩
    | none => ⟨some (intListOf A), none, i + 1, [A]⟩) = _
  rw [hB]
  show (if intTripleShape B = true then _ else _) = _
  rw [if_pos hBs]

theorem bboxStage_single {parts : List (List Char)} {i : ℕ} {A : List Char}
    (hA : parts.get? i = some A) (hAq : A ≠ ['?']) (hAs : intTripleShape A = true)
    (hnext : ∀ B, parts.get? (i + 1) = some B → intTripleShape B = false) :
    bboxStage parts i = ⟨some (intListOf A), none, i + 1, [A]⟩ := by
  unfold bboxStage
  rw [hA]
  show (if A = ['?'] then _ else _) = _
  rw [if_neg hAq, hAs]
  show (match parts.get? (i + 1) with
    | some t2 => if intTripleShape t2 = true then
        (⟨some (intListOf A), some (intListOf t2), i + 2, [A, t2]⟩ : BBoxRes)
      else ⟨some (intListOf A), none, i + 1, [A]⟩
    | none => ⟨some (intListOf A), none, i + 1, [A]⟩) = _
  cases hb : parts.get? (i + 1) with
  | none => rfl
  | some B =>
    show (if intTripleShape B = true then _ else _) = _
    rw [hnext B hb]
    simp

theorem parseHeader_cons (nm : List Char) (rest : List (List Char)) (info : List Char) :
    parseHeader (nm :: rest) info =
      some ⟨nm, (colorStage (nm :: rest)).rgb,
        (bboxStage (nm :: rest) (colorStage (nm :: rest)).i).bmin,
        (bboxStage (nm :: rest) (colorStage (nm :: rest)).i).bmax,
        ((nm :: rest).drop (bboxStage (nm :: rest) (colorStage (nm :: rest)).i).i).filter
          (fun t => decide (t ∉ (colorStage (nm :: rest)).consumed ++
            (bboxStage (nm :: rest) (colorStage (nm :: rest)).i).consumed)), info⟩ := rfl

theorem goodTok_ne_of_headParen {f t : List Char} (hf : goodTok f)
    (ht : t.head? = some '(') : f ≠ t := by
  intro he
  subst he
  cases f with
  | nil => cases ht
  | cons c r =>
    rw [List.head?_cons] at ht
    injection ht with ht
    exact (hf.2.1 c (List.mem_cons_self c r)).2.1 ht

theorem rgbStrOf_head (r0 r1 r2 : ℚ) : (rgbStrOf r0 r1 r2).head? = some '(' := by
  unfold rgbStrOf
  rfl

theorem tripleStrOf_head (a0 a1 a2 : ℤ) : (tripleStrOf a0 a1 a2).head? = some '(' := by
  unfold tripleStrOf
  rfl

theorem parseHeader_absent (nm : List Char) (k0 k1 k2 : ℤ) (flags : List (List Char))
    (info : List Char) (hfl : ∀ f ∈ flags, goodTok f ∧ f ≠ ['?']) :
    parseHeader (nm :: rgbStrOf ((k0 : ℚ) / 10) ((k1 : ℚ) / 10) ((k2 : ℚ) / 10) ::
        ['?'] :: flags) info =
      some ⟨nm, [(k0 : ℚ) / 10, (k1 : ℚ) / 10, (k2 : ℚ) / 10], none, none, flags, info⟩ := by
  rw [parseHeader_cons, colorStage_good nm k0 k1 k2]
  rw [bboxStage_q (show (nm :: rgbStrOf ((k0 : ℚ) / 10) ((k1 : ℚ) / 10) ((k2 : ℚ) / 10) ::
    ['?'] :: flags).get? 2 = some ['?'] from rfl)]
  have hfilter : flags.filter (fun t => decide (t ∉
      ([rgbStrOf ((k0 : ℚ) / 10) ((k1 : ℚ) / 10) ((k2 : ℚ) / 10)] ++ [['?']]))) = flags := by
    rw [List.filter_eq_self]
    intro f hf
    rw [decide_eq_true_eq]
    intro hm
    rcases List.mem_append.mp hm with h | h
    · rcases List.mem_singleton.mp h with h
      exact goodTok_ne_of_headParen (hfl f hf).1 (rgbStrOf_head _ _ _) h
    · rcases List.mem_singleton.mp h with h
      exact (hfl f hf).2 h
  show some _ = some _
  rw [show ((nm :: rgbStrOf ((k0 : ℚ) / 10) ((k1 : ℚ) / 10) ((k2 : ℚ) / 10) ::
    ['?'] :: flags).drop 3) = flags from rfl]
  rw [hfilter]

theorem parseHeader_present (nm : List Char) (k0 k1 k2 a0 a1 a2 b0 b1 b2 : ℤ)
    (flags : List (List Char)) (info : List Char)
    (hfl : ∀ f ∈ flags, goodTok f ∧ f ≠ ['?']) :
    parseHeader (nm :: rgbStrOf ((k0 : ℚ) / 10) ((k1 : ℚ) / 10) ((k2 : ℚ) / 10) ::
        tripleStrOf a0 a1 a2 :: tripleStrOf b0 b1 b2 :: flags) info =
      some ⟨nm, [(k0 : ℚ) / 10, (k1 : ℚ) / 10, (k2 : ℚ) / 10],
        some [a0, a1, a2], some [b0, b1, b2], flags, info⟩ := by
  rw [parseHeader_cons, colorStage_good nm k0 k1 k2]
  have hAe : tripleStrOf a0 a1 a2 ≠ ['?'] := by
    intro he
    have := congrArg List.head? he
    rw [tripleStrOf_head] at this
    injection this with this
    cases this
  rw [bboxStage_pair (show (nm :: rgbStrOf ((k0 : ℚ) / 10) ((k1 : ℚ) / 10) ((k2 : ℚ) / 10) ::
      tripleStrOf a0 a1 a2 :: tripleStrOf b0 b1 b2 :: flags).get? 2 =
      some (tripleStrOf a0 a1 a2) from rfl) hAe (intTripleShape_tripleStrOf a0 a1 a2)
    (show (nm :: rgbStrOf ((k0 : ℚ) / 10) ((k1 : ℚ) / 10) ((k2 : ℚ) / 10) ::
      tripleStrOf a0 a1 a2 :: tripleStrOf b0 b1 b2 :: flags).get? 3 =
      some (tripleStrOf b0 b1 b2) from rfl) (intTripleShape_tripleStrOf b0 b1 b2)]
  have hfilter : flags.filter (fun t => decide (t ∉
      ([rgbStrOf ((k0 : ℚ) / 10) ((k1 : ℚ) / 10) ((k2 : ℚ) / 10)] ++
        [tripleStrOf a0 a1 a2, tripleStrOf b0 b1 b2]))) = flags := by
    rw [List.filter_eq_self]
    intro f hf
    rw [decide_eq_true_eq]
    intro hm
    rcases List.mem_append.mp hm with h | h
    · rcases List.mem_singleton.mp h with h
      exact goodTok_ne_of_headParen (hfl f hf).1 (rgbStrOf_head _ _ _) h
    · rcases List.mem_cons.mp h with h | h
      · exact goodTok_ne_of_headParen (hfl f hf).1 (tripleStrOf_head _ _ _) h
      · rcases List.mem_singleton.mp h with h
        exact goodTok_ne_of_headParen (hfl f hf).1 (tripleStrOf_head _ _ _) h
  show some _ = some _
  rw [show ((nm :: rgbStrOf ((k0 : ℚ) / 10) ((k1 : ℚ) / 10) ((k2 : ℚ) / 10) ::
    tripleStrOf a0 a1 a2 :: tripleStrOf b0 b1 b2 :: flags).drop 4) = flags from rfl]
  rw [intListOf_tripleStrOf, intListOf_tripleStrOf, hfilter]

/-!
Decoding an encoded block: the search finds exactly the emitted group, the
splitter returns the emitted header and body, and the tokenizer returns the
emitted tokens.
-/

theorem headOK_of_wfTok {t : List Char} (h : wfTok t) (hne : t ≠ []) : headOK t := by
  rcases h with ⟨-, hch, -⟩ | ⟨inner, rfl, -⟩
  · unfold headOK
    cases t with
    | nil => trivial
    | cons c r =>
      rw [List.head?_cons]
      exact hch c (List.mem_cons_self c r)
  · unfold headOK
    rw [List.cons_append, List.head?_cons]
    decide

theorem headOK_append {L X : List Char} (hne : L ≠ []) (h : headOK L) : headOK (L ++ X) := by
  unfold headOK at h ⊢
  rw [List.head?_append_of_ne_nil _ hne]
  exact h

theorem decode_encoded (toks : List (List Char)) (info : List Char)
    (hne : toks ≠ [])
    (hwf : ∀ t ∈ toks, wfTok t)
    (hcl : ∀ t ∈ toks, hasClose t = false)
    (hlen : ∀ t ∈ toks, t ≠ [])
    (hlast : ∀ t ∈ toks, lastOK t)
    (hnl : ∀ t ∈ toks, ∀ c ∈ t, c ≠ '\n')
    (hinfo : strip info = info) (hic : hasClose info = false) :
    from_def_string (openMarker ++ ' ' ::
        (joinToks toks ++ '\n' :: info ++ ['\n', '*', '/'])) =
      parseHeader toks info := by
  obtain ⟨t0, ts, rfl⟩ : ∃ t0 ts, toks = t0 :: ts := by
    cases toks with
    | nil => exact absurd rfl hne
    | cons a b => exact ⟨a, b, rfl⟩
  have hLnl : ∀ c ∈ joinToks (t0 :: ts), c ≠ '\n' := by
    intro c hc
    rcases joinToks_mem hc with h | ⟨t, ht, hct⟩
    · subst h; decide
    · exact hnl t ht c hct
  have hLcl : hasClose (joinToks (t0 :: ts)) = false := hasClose_join hcl
  have hLlast : lastOK (joinToks (t0 :: ts)) :=
    joinToks_lastOK (by simp) (fun t ht => ⟨hlen t ht, hlast t ht⟩)
  have ht0ne : t0 ≠ [] := hlen t0 (List.mem_cons_self t0 ts)
  have hLhead : headOK (joinToks (t0 :: ts)) :=
    joinToks_headOK ht0ne (headOK_of_wfTok (hwf t0 (List.mem_cons_self t0 ts)) ht0ne) ts
  have hLne : joinToks (t0 :: ts) ≠ [] := joinToks_ne_nil ht0ne ts
  have hLstrip : strip (joinToks (t0 :: ts)) = joinToks (t0 :: ts) :=
    strip_eq_self_of hLhead hLlast
  have htok : tokenize (joinToks (t0 :: ts)) = t0 :: ts := tokenize_joinToks hwf
  cases info with
  | nil =>
    have hshape : joinToks (t0 :: ts) ++ '\n' :: ([] : List Char) ++ ['\n', '*', '/'] =
        joinToks (t0 :: ts) ++ (['\n', '\n'] ++ '*' :: '/' :: []) := by
      simp
    rw [hshape]
    have hs := @searchOfBlock (joinToks (t0 :: ts)) ['\n', '\n'] [] hLstrip hLcl
      (show (['\n', '\n'] : List Char) ≠ [] by simp)
      (show ∀ c ∈ (['\n', '\n'] : List Char), isSpace c = true by decide)
    unfold from_def_string
    rw [hs]
    show parseHeader (tokenize (splitHeader (strip (joinToks (t0 :: ts)))).1)
      (splitHeader (strip (joinToks (t0 :: ts)))).2 = _
    rw [hLstrip, splitHeader_noNL hLnl]
    show parseHeader (tokenize (joinToks (t0 :: ts))) [] = _
    rw [htok]
  | cons c0 info' =>
    have hBhead : headOK (joinToks (t0 :: ts) ++ '\n' :: c0 :: info') :=
      headOK_append hLne hLhead
    have hBlast : lastOK (joinToks (t0 :: ts) ++ '\n' :: c0 :: info') := by
      apply lastOKOf
      intro x hx
      rw [List.getLast?_append_of_ne_nil _ (by simp)] at hx
      rw [List.getLast?_cons_cons] at hx
      exact lastOKSpec (lastOKOfStrip hinfo) x hx
    have hBstrip : strip (joinToks (t0 :: ts) ++ '\n' :: c0 :: info') =
        joinToks (t0 :: ts) ++ '\n' :: c0 :: info' := strip_eq_self_of hBhead hBlast
    have hBcl : hasClose (joinToks (t0 :: ts) ++ '\n' :: c0 :: info') = false :=
      hasClose_sep _ hLcl hic (by decide) (by decide)
    have hshape : joinToks (t0 :: ts) ++ '\n' :: (c0 :: info') ++ ['\n', '*', '/'] =
        (joinToks (t0 :: ts) ++ '\n' :: c0 :: info') ++ (['\n'] ++ '*' :: '/' :: []) := by
      simp
    rw [hshape]
    have hs := @searchOfBlock (joinToks (t0 :: ts) ++ '\n' :: c0 :: info') ['\n'] []
      hBstrip hBcl
      (show (['\n'] : List Char) ≠ [] by simp)
      (show ∀ c ∈ (['\n'] : List Char), isSpace c = true by decide)
    unfold from_def_string
    rw [hs]
    show parseHeader
      (tokenize (splitHeader (strip (joinToks (t0 :: ts) ++ '\n' :: c0 :: info'))).1)
      (splitHeader (strip (joinToks (t0 :: ts) ++ '\n' :: c0 :: info'))).2 = _
    rw [hBstrip]
    have hsplit : splitHeader (joinToks (t0 :: ts) ++ '\n' :: c0 :: info') =
        (strip (joinToks (t0 :: ts)), strip (c0 :: info')) :=
      splitHeader_append hLnl (c0 :: info')
    rw [hsplit]
    show parseHeader (tokenize (strip (joinToks (t0 :: ts)))) (strip (c0 :: info')) = _
    rw [hLstrip, htok, hinfo]

/-!
The emitted header line as a flat token join.
-/

theorem joinToks_field_flatten (a b : List Char) {bbToks flags : List (List Char)}
    (hbne : bbToks ≠ []) (hfne : ∀ f ∈ flags, f ≠ []) :
    joinToks ([a, b, joinToks bbToks] ++
        (if (joinToks flags).isEmpty then [] else [joinToks flags])) =
      joinToks ([a, b] ++ bbToks ++ flags) := by
  cases flags with
  | nil =>
    show joinToks ([a, b, joinToks bbToks] ++ []) = _
    rw [List.append_nil, List.append_nil]
    exact joinToks_append_single [a, b] hbne
  | cons f fs =>
    have hjne : joinToks (f :: fs) ≠ [] :=
      joinToks_ne_nil (hfne f (List.mem_cons_self f fs)) fs
    have hie : (joinToks (f :: fs)).isEmpty = false := by
      rw [List.isEmpty_eq_false]
      exact hjne
    rw [hie]
    show joinToks [a, b, joinToks bbToks, joinToks (f :: fs)] = _
    rw [joinToks_flat3 a b hbne (List.cons_ne_nil f fs)]
    rfl

theorem to_def_absent (nm : List Char) (k0 k1 k2 : ℤ) (flags : List (List Char))
    (info : List Char) (hfne : ∀ f ∈ flags, f ≠ []) :
    to_def_string ⟨nm, [(k0 : ℚ) / 10, (k1 : ℚ) / 10, (k2 : ℚ) / 10], none, none, flags, info⟩ =
      some (openMarker ++ ' ' ::
        (joinToks ([nm, rgbStrOf ((k0 : ℚ) / 10) ((k1 : ℚ) / 10) ((k2 : ℚ) / 10)] ++
            [['?']] ++ flags) ++ '\n' :: strip info ++ ['\n', '*', '/'])) := by
  unfold to_def_string
  show some (openMarker ++ ' ' ::
      joinToks ([nm, rgbStrOf ((k0 : ℚ) / 10) ((k1 : ℚ) / 10) ((k2 : ℚ) / 10), ['?']] ++
        if (joinToks flags).isEmpty then [] else [joinToks flags]) ++
      '\n' :: strip info ++ ['\n', '*', '/']) = _
  have h1 : ([nm, rgbStrOf ((k0 : ℚ) / 10) ((k1 : ℚ) / 10) ((k2 : ℚ) / 10), ['?']] :
      List (List Char)) = [nm, rgbStrOf ((k0 : ℚ) / 10) ((k1 : ℚ) / 10) ((k2 : ℚ) / 10),
      joinToks [['?']]] := rfl
  rw [h1, joinToks_field_flatten _ _ (List.cons_ne_nil _ _) hfne]
  simp [List.append_assoc, List.cons_append]

theorem to_def_present (nm : List Char) (k0 k1 k2 a0 a1 a2 b0 b1 b2 : ℤ)
    (flags : List (List Char)) (info : List Char) (hfne : ∀ f ∈ flags, f ≠ []) :
    to_def_string ⟨nm, [(k0 : ℚ) / 10, (k1 : ℚ) / 10, (k2 : ℚ) / 10],
        some [a0, a1, a2], some [b0, b1, b2], flags, info⟩ =
      some (openMarker ++ ' ' ::
        (joinToks ([nm, rgbStrOf ((k0 : ℚ) / 10) ((k1 : ℚ) / 10) ((k2 : ℚ) / 10)] ++
            [tripleStrOf a0 a1 a2, tripleStrOf b0 b1 b2] ++ flags) ++
          '\n' :: strip info ++ ['\n', '*', '/'])) := by
  unfold to_def_string
  show some (openMarker ++ ' ' ::
      joinToks ([nm, rgbStrOf ((k0 : ℚ) / 10) ((k1 : ℚ) / 10) ((k2 : ℚ) / 10),
          tripleStrOf a0 a1 a2 ++ ' ' :: tripleStrOf b0 b1 b2] ++
        if (joinToks flags).isEmpty then [] else [joinToks flags]) ++
      '\n' :: strip info ++ ['\n', '*', '/']) = _
  have h1 : ([nm, rgbStrOf ((k0 : ℚ) / 10) ((k1 : ℚ) / 10) ((k2 : ℚ) / 10),
      tripleStrOf a0 a1 a2 ++ ' ' :: tripleStrOf b0 b1 b2] : List (List Char)) =
      [nm, rgbStrOf ((k0 : ℚ) / 10) ((k1 : ℚ) / 10) ((k2 : ℚ) / 10),
        joinToks [tripleStrOf a0 a1 a2, tripleStrOf b0 b1 b2]] := rfl
  rw [h1, joinToks_field_flatten _ _ (List.cons_ne_nil _ _) hfne]
  simp [List.append_assoc, List.cons_append]

/-!
Remaining small facts feeding the round-trip theorem.
-/

theorem mkRatFast_tenth (k : ℤ) : mkRatFast k 10 = (k : ℚ) / 10 := by
  rw [mkRatFast_eq]
  norm_num

theorem nonWS_ne_nl {c : Char} (h : isSpace c = false) : c ≠ '\n' := by
  intro he
  subst he
  exact absurd h (by decide)

theorem goodTok_noNL {t : List Char} (h : goodTok t) : ∀ c ∈ t, c ≠ '\n' :=
  fun c hc => nonWS_ne_nl (h.2.1 c hc).1

theorem lastOK_of_goodTok {t : List Char} (h : goodTok t) : lastOK t :=
  lastOKOf (fun c hc => (h.2.1 c (List.mem_of_mem_getLast? hc)).1)

/-!
Claim theorems.
-/

/-- C1: the spec claims decode(encode(r)) = r for every Record built through
valid mutations.  This is false as stated — a record holding the flag "?"
with an absent bounding box (reachable by a valid _add_flag call) loses that
flag in the round trip, because the decoder consumes the serialized "?" of
the bounding box and then drops the flag token of the same text (see the
counterexample).  Amended claim: the round trip is exact for every record
whose name and flags are nonempty tokens free of whitespace, parentheses and
the close marker, with no flag equal to "?", whose colour components are
exact decimal tenths, whose bounding box is either fully absent or two
three-component corners, and whose description is stripped and free of the
close marker. -/
theorem C1_round_trip (e : QuakeEntity) (k0 k1 k2 : ℤ)
    (hname : goodTok e.name)
    (hrgb : e.rgb = [mkRatFast k0 10, mkRatFast k1 10, mkRatFast k2 10])
    (hbox : (e.bbox_min = none ∧ e.bbox_max = none) ∨
      ∃ a0 a1 a2 b0 b1 b2 : ℤ,
        e.bbox_min = some [a0, a1, a2] ∧ e.bbox_max = some [b0, b1, b2])
    (hfl : ∀ f ∈ e.flags, goodTok f ∧ f ≠ ['?'])
    (hinfo : strip e.info = e.info) (hic : hasClose e.info = false) :
    ∃ s, to_def_string e = some s ∧ from_def_string s = some e := by
  obtain ⟨nm, rgb, bmin, bmax, fl, info⟩ := e
  replace hname : goodTok nm := hname
  replace hrgb : rgb = [mkRatFast k0 10, mkRatFast k1 10, mkRatFast k2 10] := hrgb
  replace hfl : ∀ f ∈ fl, goodTok f ∧ f ≠ ['?'] := hfl
  replace hinfo : strip info = info := hinfo
  replace hic : hasClose info = false := hic
  have hrgb' : rgb = [(k0 : ℚ) / 10, (k1 : ℚ) / 10, (k2 : ℚ) / 10] := by
    rw [hrgb, mkRatFast_tenth, mkRatFast_tenth, mkRatFast_tenth]
  subst hrgb'
  have hfne : ∀ f ∈ fl, f ≠ [] := fun f hf => (hfl f hf).1.1
  rcases hbox with ⟨hb1, hb2⟩ | ⟨a0, a1, a2, b0, b1, b2, hb1, hb2⟩
  · replace hb1 : bmin = none := hb1
    replace hb2 : bmax = none := hb2
    subst hb1
    subst hb2
    refine ⟨_, to_def_absent nm k0 k1 k2 fl info hfne, ?_⟩
    rw [hinfo]
    rw [decode_encoded ([nm, rgbStrOf ((k0 : ℚ) / 10) ((k1 : ℚ) / 10) ((k2 : ℚ) / 10)] ++
        [['?']] ++ fl) info (by simp) ?hwf ?hcl ?hlen ?hlast ?hnl hinfo hic]
    case hwf =>
      intro t ht
      rcases List.mem_append.mp ht with h | h
      · rcases List.mem_append.mp h with h | h
        · rcases List.mem_cons.mp h with h | h
          · exact h ▸ Or.inl (plainTok_of_goodTok hname)
          · rcases List.mem_singleton.mp h with h
            exact h ▸ Or.inr (parenTok_rgbStrOf k0 k1 k2)
        · rcases List.mem_singleton.mp h with h
          exact h ▸ Or.inl plainTok_q
      · exact Or.inl (plainTok_of_goodTok (hfl t h).1)
    case hcl =>
      intro t ht
      rcases List.mem_append.mp ht with h | h
      · rcases List.mem_append.mp h with h | h
        · rcases List.mem_cons.mp h with h | h
          · exact h ▸ hname.2.2
          · rcases List.mem_singleton.mp h with h
            exact h ▸ hasClose_rgbStrOf k0 k1 k2
        · rcases List.mem_singleton.mp h with h
          subst h
          rfl
      · exact (hfl t h).1.2.2
    case hlen =>
      intro t ht
      rcases List.mem_append.mp ht with h | h
      · rcases List.mem_append.mp h with h | h
        · rcases List.mem_cons.mp h with h | h
          · exact h ▸ hname.1
          · rcases List.mem_singleton.mp h with h
            exact h ▸ rgbStrOf_ne_nil _ _ _
        · rcases List.mem_singleton.mp h with h
          subst h
          simp
      · exact (hfl t h).1.1
    case hlast =>
      intro t ht
      rcases List.mem_append.mp ht with h | h
      · rcases List.mem_append.mp h with h | h
        · rcases List.mem_cons.mp h with h | h
          · exact h ▸ lastOK_of_goodTok hname
          · rcases List.mem_singleton.mp h with h
            exact h ▸ lastOK_rgbStrOf k0 k1 k2
        · rcases List.mem_singleton.mp h with h
          subst h
          decide
      · exact lastOK_of_goodTok (hfl t h).1
    case hnl =>
      intro t ht
      rcases List.mem_append.mp ht with h | h
      · rcases List.mem_append.mp h with h | h
        · rcases List.mem_cons.mp h with h | h
          · exact h ▸ goodTok_noNL hname
          · rcases List.mem_singleton.mp h with h
            subst h
            exact fun c hc => (fieldChar_facts (rgbStrOf_chars k0 k1 k2 c hc)).2
        · rcases List.mem_singleton.mp h with h
          subst h
          decide
      · exact goodTok_noNL (hfl t h).1
    exact parseHeader_absent nm k0 k1 k2 fl info hfl
  · replace hb1 : bmin = some [a0, a1, a2] := hb1
    replace hb2 : bmax = some [b0, b1, b2] := hb2
    subst hb1
    subst hb2
    refine ⟨_, to_def_present nm k0 k1 k2 a0 a1 a2 b0 b1 b2 fl info hfne, ?_⟩
    rw [hinfo]
    rw [decode_encoded ([nm, rgbStrOf ((k0 : ℚ) / 10) ((k1 : ℚ) / 10) ((k2 : ℚ) / 10)] ++
        [tripleStrOf a0 a1 a2, tripleStrOf b0 b1 b2] ++ fl) info
        (by simp) ?hwf2 ?hcl2 ?hlen2 ?hlast2 ?hnl2 hinfo hic]
    case hwf2 =>
      intro t ht
      rcases List.mem_append.mp ht with h | h
      · rcases List.mem_append.mp h with h | h
        · rcases List.mem_cons.mp h with h | h
          · exact h ▸ Or.inl (plainTok_of_goodTok hname)
          · rcases List.mem_singleton.mp h with h
            exact h ▸ Or.inr (parenTok_rgbStrOf k0 k1 k2)
        · rcases List.mem_cons.mp h with h | h
          · exact h ▸ Or.inr (parenTok_tripleStrOf a0 a1 a2)
          · rcases List.mem_singleton.mp h with h
            exact h ▸ Or.inr (parenTok_tripleStrOf b0 b1 b2)
      · exact Or.inl (plainTok_of_goodTok (hfl t h).1)
    case hcl2 =>
      intro t ht
      rcases List.mem_append.mp ht with h | h
      · rcases List.mem_append.mp h with h | h
        · rcases List.mem_cons.mp h with h | h
          · exact h ▸ hname.2.2
          · rcases List.mem_singleton.mp h with h
            exact h ▸ hasClose_rgbStrOf k0 k1 k2
        · rcases List.mem_cons.mp h with h | h
          · exact h ▸ hasClose_tripleStrOf a0 a1 a2
          · rcases List.mem_singleton.mp h with h
            exact h ▸ hasClose_tripleStrOf b0 b1 b2
      · exact (hfl t h).1.2.2
    case hlen2 =>
      intro t ht
      rcases List.mem_append.mp ht with h | h
      · rcases List.mem_append.mp h with h | h
        · rcases List.mem_cons.mp h with h | h
          · exact h ▸ hname.1
          · rcases List.mem_singleton.mp h with h
            exact h ▸ rgbStrOf_ne_nil _ _ _
        · rcases List.mem_cons.mp h with h | h
          · exact h ▸ tripleStrOf_ne_nil a0 a1 a2
          · rcases List.mem_singleton.mp h with h
            exact h ▸ tripleStrOf_ne_nil b0 b1 b2
      · exact (hfl t h).1.1
    case hlast2 =>
      intro t ht
      rcases List.mem_append.mp ht with h | h
      · rcases List.mem_append.mp h with h | h
        · rcases List.mem_cons.mp h with h | h
          · exact h ▸ lastOK_of_goodTok hname
          · rcases List.mem_singleton.mp h with h
            exact h ▸ lastOK_rgbStrOf k0 k1 k2
        · rcases List.mem_cons.mp h with h | h
          · exact h ▸ lastOK_tripleStrOf a0 a1 a2
          · rcases List.mem_singleton.mp h with h
            exact h ▸ lastOK_tripleStrOf b0 b1 b2
      · exact lastOK_of_goodTok (hfl t h).1
    case hnl2 =>
      intro t ht
      rcases List.mem_append.mp ht with h | h
      · rcases List.mem_append.mp h with h | h
        · rcases List.mem_cons.mp h with h | h
          · exact h ▸ goodTok_noNL hname
          · rcases List.mem_singleton.mp h with h
            subst h
            exact fun c hc => (fieldChar_facts (rgbStrOf_chars k0 k1 k2 c hc)).2
        · rcases List.mem_cons.mp h with h | h
          · subst h
            exact fun c hc => (fieldChar_facts (tripleStrOf_chars a0 a1 a2 c hc)).2
          · rcases List.mem_singleton.mp h with h
            subst h
            exact fun c hc => (fieldChar_facts (tripleStrOf_chars b0 b1 b2 c hc)).2
      · exact goodTok_noNL (hfl t h).1
    exact parseHeader_present nm k0 k1 k2 a0 a1 a2 b0 b1 b2 fl info hfl

/-- Counterexample to C1 as stated: starting from the default-constructed
record named "a", the valid mutation _add_flag "?" succeeds, yet decoding the
encoded text yields a record with no flags at all — the flag "?" is lost in
the round trip. -/
theorem C1_counterexample :
    (addFlag (mkDefault ['a']) ['?']) =
      (⟨['a'], defaultRgb, none, none, [['?']], []⟩, true) ∧
    ((to_def_string (⟨['a'], defaultRgb, none, none, [['?']], []⟩ : QuakeEntity)).bind
        from_def_string) = some ⟨['a'], defaultRgb, none, none, [], []⟩ ∧
    (⟨['a'], defaultRgb, none, none, [], []⟩ : QuakeEntity) ≠
      ⟨['a'], defaultRgb, none, none, [['?']], []⟩ := by
  refine ⟨by decide, by decide, by decide⟩

/-- Witness for C1_round_trip: hypotheses are satisfiable; at a concrete
record the round trip is exact. -/
theorem C1_witness :
    ∃ s, to_def_string (⟨['f', 'o', 'o'], [mkRatFast 8 10, mkRatFast 1 10, mkRatFast 8 10],
        none, none, [['S'], ['X']], ['h', 'i']⟩ : QuakeEntity) = some s ∧
      from_def_string s = some ⟨['f', 'o', 'o'],
        [mkRatFast 8 10, mkRatFast 1 10, mkRatFast 8 10],
        none, none, [['S'], ['X']], ['h', 'i']⟩ :=
  C1_round_trip _ 8 1 8 (by decide) (by decide) (Or.inl ⟨rfl, rfl⟩)
    (by decide) (by decide) (by decide)

/-- C2: the spec claims every rejected mutation leaves the record completely
unchanged.  This is false — _apply_entity_changes assigns the name (and, in
later failure branches, the rgb and bbox_min fields) before the validation
that raises, so a rejected call can leave a partially updated record (see the
counterexample).  Amended claim: a rejected _add_flag leaves the record
unchanged, and a rejected _apply_entity_changes never touches the flags, the
description or bbox_max — those are only assigned in the success branch. -/
theorem C2_partial_mutation (e : QuakeEntity)
    (s nameS rgbS bminS bmaxS infoS : List Char) :
    (∀ e', addFlag e s = (e', false) → e' = e) ∧
    (∀ e', applyEntityChanges e nameS rgbS bminS bmaxS infoS = (e', false) →
      e'.flags = e.flags ∧ e'.info = e.info ∧ e'.bbox_max = e.bbox_max) := by
  constructor
  · intro e' h
    unfold addFlag at h
    dsimp only at h
    split_ifs at h with h1 h2 <;> injection h with h3 h4
    · exact h3.symm
    · exact h3.symm
    · exact absurd h4 (by decide)
  · intro e' h
    unfold applyEntityChanges at h
    dsimp only at h
    repeat' split at h
    all_goals injection h with h3 h4
    all_goals first
      | exact absurd h4 (by decide)
      | (subst h3; exact ⟨rfl, rfl, rfl⟩)

/-- Counterexample to C2 as stated: a rejected _apply_entity_changes call
(crashing on a malformed colour string) has already stored the new name — the
record is partially updated. -/
theorem C2_counterexample :
    (applyEntityChanges (mkDefault ['a']) ['b'] ['x'] ['?'] ['?'] []).2 = false ∧
    (applyEntityChanges (mkDefault ['a']) ['b'] ['x'] ['?'] ['?'] []).1.name = ['b'] ∧
    (applyEntityChanges (mkDefault ['a']) ['b'] ['x'] ['?'] ['?'] []).1 ≠ mkDefault ['a'] := by
  refine ⟨by decide, by decide, by decide⟩

/-- Witness for C2_partial_mutation at concrete rejected mutations. -/
theorem C2_witness :
    ((mkDefault ['a'], false) = (mkDefault ['a'], false) → (mkDefault ['a']) = mkDefault ['a']) ∧
    (applyEntityChanges (mkDefault ['a']) ['b'] ['x'] ['?'] ['?'] []).1.flags =
      (mkDefault ['a']).flags := by
  refine ⟨?_, ?_⟩
  · intro h
    exact (C2_partial_mutation (mkDefault ['a']) [' '] [] [] [] [] []).1 (mkDefault ['a'])
      (by decide)
  · exact ((C2_partial_mutation (mkDefault ['a']) [' '] ['b'] ['x'] ['?'] ['?'] []).2
      ((applyEntityChanges (mkDefault ['a']) ['b'] ['x'] ['?'] ['?'] []).1 ) (by decide)).1

/-- C3: the spec claims consumed colour/bbox tokens are excluded from the
flags by identity (position), so a later flag sharing the text of a consumed
token is still emitted.  This is false — line 122 of the source tests
`t not in parsed_components`, a text-membership test, so a later token equal
in text to any consumed token is dropped as well (see the counterexample,
where the header `a ? ?` produces no flags at all).  Amended claim: the flags
are the tokens from the first unconsumed position onward whose text is not in
parsed_components — an order-preserving sublist excluding consumed texts, and
complete for every later token of unconsumed text. -/
theorem C3_flags_by_text (parts : List (List Char)) (info : List Char) (e : QuakeEntity)
    (h : parseHeader parts info = some e) :
    e.flags.Sublist parts ∧
    (∀ t ∈ e.flags, t ∉ consumedOf parts) ∧
    (∀ j t, flagStart parts ≤ j → parts.get? j = some t → t ∉ consumedOf parts →
      t ∈ e.flags) := by
  cases parts with
  | nil => exact absurd h (by simp [parseHeader])
  | cons nm rest =>
    rw [parseHeader_cons] at h
    injection h with h
    subst h
    refine ⟨?_, ?_, ?_⟩
    · exact ((nm :: rest).drop _).filter_sublist.trans (List.drop_sublist _ _)
    · intro t ht
      have := (List.mem_filter.mp ht).2
      rw [decide_eq_true_eq] at this
      exact this
    · intro j t hj hget hnc
      apply List.mem_filter.mpr
      refine ⟨?_, by rw [decide_eq_true_eq]; exact hnc⟩
      have hjj : flagStart (nm :: rest) + (j - flagStart (nm :: rest)) = j := by omega
      have : ((nm :: rest).drop (flagStart (nm :: rest))).get? (j - flagStart (nm :: rest)) =
          some t := by
        rw [List.get?_drop, hjj]
        exact hget
      exact List.get?_mem this

/-- Counterexample to C3 as stated: decoding the block `/*QUAKED a ? ?\n*/`
yields no flags — the second `?`, never consumed, is excluded because its
text equals the consumed bounding-box marker, while the claim requires it to
be emitted as a flag. -/
theorem C3_counterexample :
    from_def_string
        ['/', '*', 'Q', 'U', 'A', 'K', 'E', 'D', ' ', 'a', ' ', '?', ' ', '?', '\n', '*', '/'] =
      some ⟨['a'], defaultRgb, none, none, [], []⟩ := by
  decide

/-- Witness for C3_flags_by_text on the tokens of the counterexample header. -/
theorem C3_witness :
    ((⟨['a'], defaultRgb, none, none, [], []⟩ : QuakeEntity).flags).Sublist
      [['a'], ['?'], ['?']] ∧
    (∀ t ∈ (⟨['a'], defaultRgb, none, none, [], []⟩ : QuakeEntity).flags,
      t ∉ consumedOf [['a'], ['?'], ['?']]) ∧
    (∀ j t, flagStart [['a'], ['?'], ['?']] ≤ j →
      [['a'], ['?'], ['?']].get? j = some t → t ∉ consumedOf [['a'], ['?'], ['?']] →
      t ∈ (⟨['a'], defaultRgb, none, none, [], []⟩ : QuakeEntity).flags) :=
  C3_flags_by_text [['a'], ['?'], ['?']] [] _ (by decide)

/-- C4: decode fails exactly when the reconstructed block's trimmed header is
empty.  Confirmed: for every stripped, close-marker-free, newline-free
header text t, decoding the reconstructed block `/*QUAKED t */` returns
None exactly when t is empty; any other content — however malformed — yields
a record. -/
theorem C4_decode_failure (t : List Char) (hst : strip t = t)
    (hnc : hasClose t = false) (hnl : ∀ c ∈ t, c ≠ '\n') :
    (from_def_string (openMarker ++ ' ' :: (t ++ ([' '] ++ '*' :: '/' :: []))) = none ↔
      t = []) := by
  have hs := @searchOfBlock t [' '] [] hst hnc (show ([' '] : List Char) ≠ [] by simp)
    (show ∀ c ∈ ([' '] : List Char), isSpace c = true by decide)
  unfold from_def_string
  rw [hs]
  show parseHeader (tokenize (splitHeader (strip t)).1) (splitHeader (strip t)).2 = none ↔ _
  rw [hst, splitHeader_noNL hnl]
  show parseHeader (tokenize t) [] = none ↔ _
  constructor
  · intro h
    cases t with
    | nil => rfl
    | cons c r =>
      have hc : isSpace c = false := by
        have := headOKOfStrip hst
        unfold headOK at this
        simpa using this
      obtain ⟨t0, ts, htok⟩ : ∃ t0 ts, tokenize (c :: r) = t0 :: ts := by
        cases htt : tokenize (c :: r) with
        | nil => exact absurd htt (tokenize_ne_nil hc)
        | cons a b => exact ⟨a, b, rfl⟩
      rw [htok, parseHeader_cons] at h
      cases h
  · intro h
    subst h
    rfl

/-- Witness for C4_decode_failure: the garbage header "baz g" (no colour, no
bounding box) still decodes to a record, and the empty header does not. -/
theorem C4_witness :
    (from_def_string (openMarker ++ ' ' ::
        (['b', 'a', 'z', ' ', 'g'] ++ ([' '] ++ '*' :: '/' :: []))) = none ↔
      (['b', 'a', 'z', ' ', 'g'] : List Char) = []) :=
  C4_decode_failure ['b', 'a', 'z', ' ', 'g'] (by decide) (by decide) (by decide)

/-- C5: when the token at the bounding-box position parses as an integer
triple and the following token is absent or does not match, decode returns a
record with bbox_min set to the parsed triple and bbox_max unset — the
one-sided state survives.  Confirmed at the header-parsing level. -/
theorem C5_one_sided_bbox (parts : List (List Char)) (info : List Char)
    (nm : List Char) (rest : List (List Char)) (hp : parts = nm :: rest)
    (t : List Char) (ht : parts.get? (colorStage parts).i = some t)
    (htq : t ≠ ['?']) (hts : intTripleShape t = true)
    (hnext : ∀ t2, parts.get? ((colorStage parts).i + 1) = some t2 →
      intTripleShape t2 = false) :
    ∃ e, parseHeader parts info = some e ∧
      e.bbox_min = some (intListOf t) ∧ e.bbox_max = none := by
  subst hp
  rw [parseHeader_cons, bboxStage_single ht htq hts hnext]
  exact ⟨_, rfl, rfl, rfl⟩

/-- Witness for C5_one_sided_bbox: after the colour `(0.1 0.2 0.3)` the
triple `(1 2 3)` is followed by nothing, and the decoded bounding box is
one-sided. -/
theorem C5_witness :
    ∃ e, parseHeader [['b'], ['(', '0', '.', '1', ' ', '0', '.', '2', ' ', '0', '.', '3', ')'],
        ['(', '1', ' ', '2', ' ', '3', ')']] [] = some e ∧
      e.bbox_min = some (intListOf ['(', '1', ' ', '2', ' ', '3', ')']) ∧
      e.bbox_max = none :=
  C5_one_sided_bbox _ [] ['b'] _ rfl _ (by decide) (by decide) (by decide)
    (fun t2 h2 => Option.noConfusion h2)

/-- C6: the bounding-box field renders as the two corner triples when both
corners are present (three components each), and as the literal question mark
in every other presence state — both corners absent or exactly one present.
Confirmed. -/
theorem C6_bbox_field (e : QuakeEntity) :
    ((e.bbox_min = none ∨ e.bbox_max = none) → bboxFieldOf e = some ['?']) ∧
    (∀ a0 a1 a2 b0 b1 b2 : ℤ, e.bbox_min = some [a0, a1, a2] →
      e.bbox_max = some [b0, b1, b2] →
      bboxFieldOf e = some (tripleStrOf a0 a1 a2 ++ ' ' :: tripleStrOf b0 b1 b2)) := by
  constructor
  · intro h
    unfold bboxFieldOf
    cases hm : e.bbox_min with
    | none =>
      cases e.bbox_max with
      | none => rfl
      | some mx => rfl
    | some mn =>
      cases hx : e.bbox_max with
      | none => rfl
      | some mx =>
        rcases h with h | h
        · rw [hm] at h
          cases h
        · rw [hx] at h
          cases h
  · intro a0 a1 a2 b0 b1 b2 hm hx
    unfold bboxFieldOf
    rw [hm, hx]

/-- Witness for C6_bbox_field: a record with no bounding box renders the
question mark; one with both corners renders the corner pair. -/
theorem C6_witness :
    bboxFieldOf (mkDefault ['a']) = some ['?'] ∧
    bboxFieldOf ⟨['a'], defaultRgb, some [1, 2, 3], some [4, 5, 6], [], []⟩ =
      some (tripleStrOf 1 2 3 ++ ' ' :: tripleStrOf 4 5 6) :=
  ⟨(C6_bbox_field (mkDefault ['a'])).1 (Or.inl rfl),
    (C6_bbox_field ⟨['a'], defaultRgb, some [1, 2, 3], some [4, 5, 6], [], []⟩).2
      1 2 3 4 5 6 rfl rfl⟩

/-- C7: the tokenizer makes a parenthesized group one token and any other
maximal non-whitespace run one token; the header
`foo (0.8 0.1 0.8) ? SOLID TRANSLUCENT` decodes to name foo, colour
(0.8, 0.1, 0.8), absent bounding box and flags [SOLID, TRANSLUCENT] in
order.  Confirmed on the concrete example. -/
theorem C7_tokenizer_example :
    tokenize ['f', 'o', 'o', ' ', '(', '0', '.', '8', ' ', '0', '.', '1', ' ', '0', '.', '8',
        ')', ' ', '?', ' ', 'S', 'O', 'L', 'I', 'D', ' ',
        'T', 'R', 'A', 'N', 'S', 'L', 'U', 'C', 'E', 'N', 'T'] =
      [['f', 'o', 'o'], ['(', '0', '.', '8', ' ', '0', '.', '1', ' ', '0', '.', '8', ')'],
        ['?'], ['S', 'O', 'L', 'I', 'D'], ['T', 'R', 'A', 'N', 'S', 'L', 'U', 'C', 'E', 'N', 'T']] ∧
    from_def_string
        ['/', '*', 'Q', 'U', 'A', 'K', 'E', 'D', ' ', 'f', 'o', 'o', ' ', '(', '0', '.', '8',
          ' ', '0', '.', '1', ' ', '0', '.', '8', ')', ' ', '?', ' ', 'S', 'O', 'L', 'I', 'D',
          ' ', 'T', 'R', 'A', 'N', 'S', 'L', 'U', 'C', 'E', 'N', 'T', '\n', '*', '/'] =
      some ⟨['f', 'o', 'o'], [mkRatFast 8 10, mkRatFast 1 10, mkRatFast 8 10], none, none,
        [['S', 'O', 'L', 'I', 'D'], ['T', 'R', 'A', 'N', 'S', 'L', 'U', 'C', 'E', 'N', 'T']],
        []⟩ := by
  refine ⟨by decide, by decide⟩

/-- C8: encode emits exactly the open marker, a space, the header (name,
colour with one digit after each decimal point, bounding-box field, then the
space-joined flags only when flags exist), a newline, the trimmed
description, a newline and the close marker; colour (1, 0.5, 0) renders as
"(1.0 0.5 0.0)".  Confirmed for every record with a three-component colour
and a renderable bounding-box field. -/
theorem C8_encode_format (e : QuakeEntity) (r0 r1 r2 : ℚ) (restC : List ℚ)
    (hrgb : e.rgb = r0 :: r1 :: r2 :: restC) (bb : List Char)
    (hbb : bboxFieldOf e = some bb) (hfne : ∀ f ∈ e.flags, f ≠ []) :
    to_def_string e = some (openMarker ++ ' ' :: (e.name ++ ' ' :: (rgbStrOf r0 r1 r2 ++
        ' ' :: (bb ++ (if e.flags = [] then [] else ' ' :: joinToks e.flags)))) ++
      '\n' :: strip e.info ++ ['\n', '*', '/']) ∧
    rgbStrOf 1 (mkRatFast 5 10) 0 =
      ['(', '1', '.', '0', ' ', '0', '.', '5', ' ', '0', '.', '0', ')'] := by
  refine ⟨?_, by decide⟩
  unfold to_def_string
  rw [hrgb]
  show (match bboxFieldOf e with
    | none => none
    | some bb =>
      some (openMarker ++ ' ' ::
        joinToks ([e.name, rgbStrOf r0 r1 r2, bb] ++
          if (joinToks e.flags).isEmpty then [] else [joinToks e.flags]) ++
        '\n' :: strip e.info ++ ['\n', '*', '/'])) = _
  rw [hbb]
  show some (openMarker ++ ' ' ::
      joinToks ([e.name, rgbStrOf r0 r1 r2, bb] ++
        if (joinToks e.flags).isEmpty then [] else [joinToks e.flags]) ++
      '\n' :: strip e.info ++ ['\n', '*', '/']) = _
  cases hfc : e.flags with
  | nil =>
    show some (openMarker ++ ' ' :: joinToks [e.name, rgbStrOf r0 r1 r2, bb] ++
      '\n' :: strip e.info ++ ['\n', '*', '/']) = _
    show some (openMarker ++ ' ' ::
      (e.name ++ ' ' :: (rgbStrOf r0 r1 r2 ++ ' ' :: bb)) ++
      '\n' :: strip e.info ++ ['\n', '*', '/']) = _
    simp [List.append_assoc, List.cons_append]
  | cons f fs =>
    rw [hfc] at hfne
    have hne : joinToks (f :: fs) ≠ [] :=
      joinToks_ne_nil (hfne f (List.mem_cons_self f fs)) fs
    have hie : (joinToks (f :: fs)).isEmpty = false := by
      rw [List.isEmpty_eq_false]
      exact hne
    rw [hie]
    show some (openMarker ++ ' ' ::
      joinToks [e.name, rgbStrOf r0 r1 r2, bb, joinToks (f :: fs)] ++
      '\n' :: strip e.info ++ ['\n', '*', '/']) = _
    show some (openMarker ++ ' ' ::
      (e.name ++ ' ' :: (rgbStrOf r0 r1 r2 ++ ' ' :: (bb ++ ' ' :: joinToks (f :: fs)))) ++
      '\n' :: strip e.info ++ ['\n', '*', '/']) = _
    simp [List.append_assoc, List.cons_append]

/-- Witness for C8_encode_format at a concrete record with the claim's
colour (1, 0.5, 0), a present bounding box and one flag. -/
theorem C8_witness :
    to_def_string (⟨['a'], [1, mkRatFast 5 10, 0], some [1, 2, 3], some [4, 5, 6],
        [['F']], []⟩ : QuakeEntity) =
      some (openMarker ++ ' ' :: (['a'] ++ ' ' :: (rgbStrOf 1 (mkRatFast 5 10) 0 ++
          ' ' :: ((tripleStrOf 1 2 3 ++ ' ' :: tripleStrOf 4 5 6) ++
            (if ([['F']] : List (List Char)) = [] then []
             else ' ' :: joinToks [['F']])))) ++
        '\n' :: strip [] ++ ['\n', '*', '/']) ∧
    rgbStrOf 1 (mkRatFast 5 10) 0 =
      ['(', '1', '.', '0', ' ', '0', '.', '5', ' ', '0', '.', '0', ')'] :=
  C8_encode_format _ 1 (mkRatFast 5 10) 0 [] rfl _ (by decide) (by decide)

/-- C9: extract_blocks never fails — it returns the trimmed contents of
every marked block in file order, the empty sequence when no marker occurs,
and skips comment regions lacking the QUAKED keyword.  Confirmed. -/
theorem C9_extract (s pre t post : List Char) :
    (hasMarker s = false → extract_blocks s = []) ∧
    (hasMarker (pre ++ openMarker.take 7) = false → strip t = t → hasClose t = false →
      extract_blocks (pre ++ (openMarker ++ ' ' :: (t ++ ([' '] ++ '*' :: '/' :: post)))) =
        t :: extract_blocks post) := by
  constructor
  · intro h
    exact extract_blocks_none (quakedSearchNone h)
  · intro h1 h2 h3
    have hs : quakedSearch (openMarker ++ ' ' :: (t ++ ([' '] ++ '*' :: '/' :: post))) =
        some (t, post) := searchOfBlock h2 h3 (by simp)
      (show ∀ c ∈ ([' '] : List Char), isSpace c = true by decide)
    have hskip := quakedSearchSkip pre (t ++ ([' '] ++ '*' :: '/' :: post)) h1
    have hfull : quakedSearch
        (pre ++ (openMarker ++ ' ' :: (t ++ ([' '] ++ '*' :: '/' :: post)))) =
        some (t, post) := by
      rw [hskip]
      exact hs
    rw [extract_blocks_some hfull]

/-- Witness for C9_extract: a file with no marker yields nothing; a plain
comment followed by a QUAKED block yields exactly the block's content. -/
theorem C9_witness :
    extract_blocks ['x'] = [] ∧
    extract_blocks (['/', '*', ' ', 'h', 'i', ' ', '*', '/', ' '] ++ (openMarker ++ ' ' ::
        (['f', 'o', 'o'] ++ ([' '] ++ '*' :: '/' :: [])))) =
      ['f', 'o', 'o'] :: extract_blocks [] :=
  ⟨(C9_extract ['x'] [] [] []).1 (by decide),
    (C9_extract [] ['/', '*', ' ', 'h', 'i', ' ', '*', '/', ' '] ['f', 'o', 'o'] []).2
      (by decide) (by decide) (by decide)⟩

/-- C10: decode does not enforce flag uniqueness — the header `a X X` decodes
to a record whose flag list holds the text X twice, while _add_flag rejects
inserting X again into that record.  Confirmed. -/
theorem C10_duplicate_flags :
    from_def_string
        ['/', '*', 'Q', 'U', 'A', 'K', 'E', 'D', ' ', 'a', ' ', 'X', ' ', 'X', '\n', '*', '/'] =
      some ⟨['a'], defaultRgb, none, none, [['X'], ['X']], []⟩ ∧
    addFlag ⟨['a'], defaultRgb, none, none, [['X'], ['X']], []⟩ ['X'] =
      (⟨['a'], defaultRgb, none, none, [['X'], ['X']], []⟩, false) := by
  refine ⟨by decide, by decide⟩
